import Mathlib

/-!
Verification of the dependency-graph engine of the `felt` task tracker.

The engine (Go package `felt`, file `graph.go`) builds an in-memory graph
from a flat list of fibers ("felts") and answers traversal, readiness,
cycle-detection and path queries.  This file gives a shallow embedding of
that engine and settles the frozen claims about it.

Modelling conventions:
* Go `map[string]T` values are modelled as association lists
  `List (String × T)` where assignment replaces the entry in place
  (`insertA`).  A missing key reads as `none` / the empty list, exactly as
  Go's zero value for a slice-valued map entry.
* Go map iteration order is unspecified (and randomized by the runtime).
  `BuildGraphWith` therefore takes the iteration order of the second pass
  over `Upstream` as an explicit parameter; `BuildGraph` instantiates it
  with the insertion order of the map keys.  `validOrder` says an order is
  one Go could produce (a permutation of the map's keys).
* `time.Time` is modelled as `Nat`; `t1.Before(t2)` is `t1 < t2`.
-/

/-- A dependency reference: target id plus an optional label (Go `Dependency`). -/
structure Dependency where
  ID : String
  Label : String
deriving DecidableEq, Repr

/-- The fiber record, restricted to the fields the graph engine reads
(Go `Felt`; unused presentation fields are omitted). -/
structure Felt where
  ID : String
  Title : String
  Status : String
  DependsOn : List Dependency
  CreatedAt : Nat
deriving DecidableEq, Repr

/-- Go constant `StatusOpen`. -/
def StatusOpen : String := "open"

/-- Go constant `StatusActive`. -/
def StatusActive : String := "active"

/-- Go constant `StatusClosed`. -/
def StatusClosed : String := "closed"

/-- Go `(*Felt).IsOpen`. -/
def Felt.IsOpen (f : Felt) : Bool := f.Status == StatusOpen

/-- Go `(*Felt).IsActive`. -/
def Felt.IsActive (f : Felt) : Bool := f.Status == StatusActive

/-- Go `(*Felt).IsClosed`. -/
def Felt.IsClosed (f : Felt) : Bool := f.Status == StatusClosed

/-- Association-list read, modelling Go map lookup `m[k]` (with `ok`). -/
def lookupA {α : Type} : List (String × α) → String → Option α
  | [], _ => none
  | (k', v) :: rest, k => if k' = k then some v else lookupA rest k

/-- Association-list write, modelling Go map assignment `m[k] = v`
(replaces the existing entry, otherwise appends a new one). -/
def insertA {α : Type} : List (String × α) → String → α → List (String × α)
  | [], k, v => [(k, v)]
  | (k', v') :: rest, k, v =>
      if k' = k then (k, v) :: rest else (k', v') :: insertA rest k v

/-- Read of a `Dependencies`-valued map entry: Go's zero value for a missing
key is the nil slice, i.e. the empty list. -/
def getA (m : List (String × List Dependency)) (k : String) : List Dependency :=
  (lookupA m k).getD []

/-- Keys of an association list. -/
def keysA {α : Type} (m : List (String × α)) : List String := m.map Prod.fst

/-- First pass of Go `BuildGraph`: index every felt by id (`g.Nodes[f.ID] = f`). -/
def buildNodes (felts : List Felt) : List (String × Felt) :=
  felts.foldl (fun m f => insertA m f.ID f) []

/-- First pass of Go `BuildGraph`: copy each felt's dependency list
(`g.Upstream[f.ID] = f.DependsOn`). -/
def buildUpstream (felts : List Felt) : List (String × List Dependency) :=
  felts.foldl (fun m f => insertA m f.ID f.DependsOn) []

/-- One step of the second pass of Go `BuildGraph`: for a single map key
`id`, append `(id, dep.Label)` to `Downstream[dep.ID]` for each `dep`. -/
def downStep (up : List (String × List Dependency))
    (m : List (String × List Dependency)) (id : String) :
    List (String × List Dependency) :=
  (getA up id).foldl
    (fun m dep => insertA m dep.ID (getA m dep.ID ++ [Dependency.mk id dep.Label])) m

/-- Second pass of Go `BuildGraph`, iterating the `Upstream` map in the
given `order` (Go map iteration order is unspecified, hence the parameter). -/
def buildDownstreamWith (order : List String)
    (up : List (String × List Dependency)) : List (String × List Dependency) :=
  order.foldl (downStep up) []

/-- Go `Graph`: node index plus the two adjacency maps. -/
structure Graph where
  Nodes : List (String × Felt)
  Upstream : List (String × List Dependency)
  Downstream : List (String × List Dependency)
deriving DecidableEq, Repr

/-- Go `BuildGraph`, with the iteration order of the second pass over
`Upstream` made explicit. -/
def BuildGraphWith (order : List String) (felts : List Felt) : Graph :=
  { Nodes := buildNodes felts
    Upstream := buildUpstream felts
    Downstream := buildDownstreamWith order (buildUpstream felts) }

/-- Insertion order of the `Upstream` map keys (the canonical iteration order). -/
def upKeys (felts : List Felt) : List String := keysA (buildUpstream felts)

/-- Go `BuildGraph` at the canonical iteration order. -/
def BuildGraph (felts : List Felt) : Graph := BuildGraphWith (upKeys felts) felts

/-- An iteration order Go's runtime could produce for the second pass:
each key of the `Upstream` map exactly once, in any order. -/
def validOrder (order : List String) (felts : List Felt) : Prop :=
  order.Perm (upKeys felts)

instance validOrder.decidable (order : List String) (felts : List Felt) :
    Decidable (validOrder order felts) :=
  inferInstanceAs (Decidable (order.Perm (upKeys felts)))

/-! Basic association-list lemmas. -/

theorem lookupA_insertA_self {α : Type} (m : List (String × α)) (k : String) (v : α) :
    lookupA (insertA m k v) k = some v := by
  induction m with
  | nil => simp [insertA, lookupA]
  | cons p rest ih =>
      obtain ⟨k', v'⟩ := p
      by_cases h : k' = k
      · simp [insertA, h, lookupA]
      · simp [insertA, h, lookupA, ih]

theorem lookupA_insertA_ne {α : Type} (m : List (String × α)) (k k' : String) (v : α)
    (h : k ≠ k') : lookupA (insertA m k v) k' = lookupA m k' := by
  induction m with
  | nil => simp [insertA, lookupA, h]
  | cons p rest ih =>
      obtain ⟨k₀, v₀⟩ := p
      by_cases h₀ : k₀ = k
      · subst h₀
        simp [insertA, lookupA, h]
      · simp [insertA, h₀, lookupA, ih]

theorem getA_insertA_self (m : List (String × List Dependency)) (k : String)
    (v : List Dependency) : getA (insertA m k v) k = v := by
  simp [getA, lookupA_insertA_self]

theorem getA_insertA_ne (m : List (String × List Dependency)) (k k' : String)
    (v : List Dependency) (h : k ≠ k') : getA (insertA m k v) k' = getA m k' := by
  simp [getA, lookupA_insertA_ne m k k' v h]

/-- Generic characterization of the first-pass folds: the stored value for
`id` comes from the last felt in the list with that id. -/
theorem lookupA_foldl_insert {α : Type} (v : Felt → α) (felts : List Felt)
    (m : List (String × α)) (id : String) :
    lookupA (felts.foldl (fun m f => insertA m f.ID (v f)) m) id
      = ((felts.reverse.find? (fun f => f.ID == id)).map v).or (lookupA m id) := by
  induction felts generalizing m with
  | nil => simp
  | cons f rest ih =>
      simp only [List.foldl_cons, List.reverse_cons, List.find?_append]
      rw [ih]
      cases hfind : List.find? (fun f => f.ID == id) rest.reverse with
      | some g => simp [hfind]
      | none =>
          simp only [hfind, Option.map_none', Option.none_or, List.find?]
          by_cases h : f.ID = id
          · simp [h, lookupA_insertA_self]
          · have : (f.ID == id) = false := by simp [h]
            simp [this, lookupA_insertA_ne _ _ _ _ h]

/-- `Nodes` keeps the last felt with each id. -/
theorem lookupA_buildNodes (felts : List Felt) (id : String) :
    lookupA (buildNodes felts) id = felts.reverse.find? (fun f => f.ID == id) := by
  have h := lookupA_foldl_insert (fun f => f) felts [] id
  simpa [buildNodes, lookupA] using h

/-- `Upstream` keeps the dependency list of the last felt with each id. -/
theorem lookupA_buildUpstream (felts : List Felt) (id : String) :
    lookupA (buildUpstream felts) id
      = (felts.reverse.find? (fun f => f.ID == id)).map Felt.DependsOn := by
  have h := lookupA_foldl_insert Felt.DependsOn felts [] id
  simpa [buildUpstream, lookupA] using h

/-- `Upstream` is `Nodes` composed with the `DependsOn` projection. -/
theorem lookupA_upstream_nodes (felts : List Felt) (id : String) :
    lookupA (buildUpstream felts) id
      = (lookupA (buildNodes felts) id).map Felt.DependsOn := by
  rw [lookupA_buildNodes, lookupA_buildUpstream]

/-! Characterization of the second pass (`Downstream`). -/

/-- The entries the second pass contributes to `Downstream[k]` while
processing source id `id`. -/
def contribTo (up : List (String × List Dependency)) (id k : String) :
    List Dependency :=
  (getA up id).filterMap
    (fun dep => if dep.ID = k then some (Dependency.mk id dep.Label) else none)

theorem getA_depsFold (id k : String) (deps : List Dependency)
    (m : List (String × List Dependency)) :
    getA (deps.foldl
      (fun m dep => insertA m dep.ID (getA m dep.ID ++ [Dependency.mk id dep.Label])) m) k
      = getA m k ++ deps.filterMap
          (fun dep => if dep.ID = k then some (Dependency.mk id dep.Label) else none) := by
  induction deps generalizing m with
  | nil => simp
  | cons d rest ih =>
      simp only [List.foldl_cons, List.filterMap_cons]
      by_cases h : d.ID = k
      · rw [ih]
        simp [h, getA_insertA_self]
      · rw [ih]
        simp [h, getA_insertA_ne _ _ _ _ h]

theorem getA_downStep (up m : List (String × List Dependency)) (id k : String) :
    getA (downStep up m id) k = getA m k ++ contribTo up id k := by
  simpa [downStep, contribTo] using getA_depsFold id k (getA up id) m

theorem getA_orderFold (up : List (String × List Dependency)) (order : List String)
    (m : List (String × List Dependency)) (k : String) :
    getA (order.foldl (downStep up) m) k
      = getA m k ++ order.flatMap (fun id => contribTo up id k) := by
  induction order generalizing m with
  | nil => simp
  | cons id rest ih =>
      simp only [List.foldl_cons, List.flatMap_cons]
      rw [ih, getA_downStep, List.append_assoc]

/-- `Downstream[k]` is exactly the concatenation, in iteration order, of the
per-source contributions. -/
theorem getA_buildDownstreamWith (order : List String)
    (up : List (String × List Dependency)) (k : String) :
    getA (buildDownstreamWith order up) k
      = order.flatMap (fun id => contribTo up id k) := by
  simpa [buildDownstreamWith, getA, lookupA] using getA_orderFold up order [] k

/-! Key-set lemmas. -/

theorem lookupA_eq_none_iff {α : Type} (m : List (String × α)) (k : String) :
    lookupA m k = none ↔ k ∉ keysA m := by
  induction m with
  | nil => simp [lookupA, keysA]
  | cons p rest ih =>
      obtain ⟨k', v⟩ := p
      by_cases h : k' = k
      · subst h
        simp [lookupA, keysA]
      · simp [lookupA, h, keysA, ih]
        tauto

theorem keysA_insertA {α : Type} (m : List (String × α)) (k : String) (v : α) :
    keysA (insertA m k v) = if k ∈ keysA m then keysA m else keysA m ++ [k] := by
  induction m with
  | nil => simp [insertA, keysA]
  | cons p rest ih =>
      obtain ⟨k', v'⟩ := p
      by_cases h : k' = k
      · subst h
        simp [insertA, keysA]
      · have hne : ¬k = k' := fun hc => h hc.symm
        simp only [keysA, List.map_cons] at ih ⊢
        simp only [insertA, if_neg h, List.map_cons]
        rw [ih]
        by_cases hmem : k ∈ List.map Prod.fst rest
        · simp [hmem, hne]
        · simp [hmem, hne]

theorem nodup_keysA_insertA {α : Type} (m : List (String × α)) (k : String) (v : α)
    (h : (keysA m).Nodup) : (keysA (insertA m k v)).Nodup := by
  rw [keysA_insertA]
  by_cases hmem : k ∈ keysA m
  · simpa [hmem] using h
  · rw [if_neg hmem]
    refine List.Nodup.append h (List.nodup_singleton k) ?_
    intro a ha hak
    rw [List.mem_singleton] at hak
    subst hak
    exact hmem ha

theorem nodup_keysA_foldl_insert {α : Type} (v : Felt → α) (felts : List Felt)
    (m : List (String × α)) (h : (keysA m).Nodup) :
    (keysA (felts.foldl (fun m f => insertA m f.ID (v f)) m)).Nodup := by
  induction felts generalizing m with
  | nil => simpa using h
  | cons f rest ih => exact ih _ (nodup_keysA_insertA _ _ _ h)

theorem nodup_upKeys (felts : List Felt) : (upKeys felts).Nodup := by
  exact nodup_keysA_foldl_insert Felt.DependsOn felts [] (by simp [keysA])

theorem nodup_keys_buildNodes (felts : List Felt) :
    (keysA (buildNodes felts)).Nodup := by
  exact nodup_keysA_foldl_insert (fun f => f) felts [] (by simp [keysA])

/-- With nodup keys, association-list membership coincides with lookup. -/
theorem mem_iff_lookupA {α : Type} (m : List (String × α)) (k : String) (v : α)
    (h : (keysA m).Nodup) : (k, v) ∈ m ↔ lookupA m k = some v := by
  induction m with
  | nil => simp [lookupA]
  | cons p rest ih =>
      obtain ⟨k', v'⟩ := p
      simp only [keysA, List.map_cons, List.nodup_cons] at h
      by_cases hk : k' = k
      · subst hk
        simp only [List.mem_cons, lookupA, if_pos rfl]
        constructor
        · rintro (hp | hp)
          · simp [Prod.ext_iff] at hp
            simp [hp]
          · exact absurd (List.mem_map_of_mem Prod.fst hp) (by simpa [keysA] using h.1)
        · intro hv
          left
          simp at hv
          simp [hv]
      · simp only [List.mem_cons, lookupA, if_neg hk]
        rw [ih (by simpa [keysA] using h.2)]
        constructor
        · rintro (hp | hp)
          · exact absurd (congrArg Prod.fst hp).symm hk
          · exact hp
        · exact fun hv => Or.inr hv

/-- Every key in `buildNodes` equals the id of the felt it stores. -/
theorem key_eq_id_buildNodes (felts : List Felt) (k : String) (f : Felt)
    (h : (k, f) ∈ buildNodes felts) : k = f.ID := by
  have hlk := (mem_iff_lookupA _ k f (nodup_keys_buildNodes felts)).mp h
  rw [lookupA_buildNodes] at hlk
  have h2 : f.ID = k := by simpa using List.find?_some hlk
  exact h2.symm

/-! Helper: the filtered inverse-edge characterization shared by C4 and C10. -/

theorem filterMap_ite_eq_map_filter (l : List Dependency) (k : String)
    (g : Dependency → Dependency) :
    l.filterMap (fun dep => if dep.ID = k then some (g dep) else none)
      = (l.filter (fun d => d.ID == k)).map g := by
  induction l with
  | nil => simp
  | cons d rest ih =>
      by_cases h : d.ID = k
      · simp [List.filterMap_cons, List.filter_cons, h, ih]
      · simp [List.filterMap_cons, List.filter_cons, h, ih]

/-- The sub-sequence of `Downstream[B]` whose entries point at dependent `A`
is exactly the image of the `B`-entries of `Upstream[A]`. -/
theorem contribTo_filter_self (up : List (String × List Dependency)) (A B : String) :
    (contribTo up A B).filter (fun e => e.ID == A) = contribTo up A B := by
  rw [List.filter_eq_self]
  intro e he
  simp only [contribTo, List.mem_filterMap] at he
  obtain ⟨dep, _, hdep⟩ := he
  by_cases hid : dep.ID = B
  · simp only [if_pos hid] at hdep
    rw [← Option.some_inj.mp hdep]
    simp
  · simp [if_neg hid] at hdep

theorem contribTo_filter_other (up : List (String × List Dependency)) (x A B : String)
    (hx : ¬x = A) : (contribTo up x B).filter (fun e => e.ID == A) = [] := by
  rw [List.filter_eq_nil_iff]
  intro e he
  simp only [contribTo, List.mem_filterMap] at he
  obtain ⟨dep, _, hdep⟩ := he
  by_cases hid : dep.ID = B
  · simp only [if_pos hid] at hdep
    rw [← Option.some_inj.mp hdep]
    simpa using hx
  · simp [if_neg hid] at hdep

theorem flatMap_contrib_filter (up : List (String × List Dependency)) (A B : String)
    (l : List String) (hl : l.Nodup) :
    ((l.flatMap (fun id => contribTo up id B)).filter (fun e => e.ID == A))
      = if A ∈ l then contribTo up A B else [] := by
  induction l with
  | nil => simp
  | cons x rest ih =>
      simp only [List.flatMap_cons, List.filter_append, List.mem_cons]
      rw [ih hl.of_cons]
      by_cases hx : x = A
      · have hA : A ∉ rest := by
          rw [← hx]
          exact (List.nodup_cons.mp hl).1
        rw [hx, contribTo_filter_self]
        simp [hA]
      · have hx' : ¬A = x := fun hc => hx hc.symm
        rw [contribTo_filter_other up x A B hx]
        by_cases hmem : A ∈ rest
        · simp [hmem, hx']
        · simp [hmem, hx']

theorem downstream_filter_char (felts : List Felt) (A B : String) :
    (getA (BuildGraph felts).Downstream B).filter (fun e => e.ID == A)
      = ((getA (BuildGraph felts).Upstream A).filter (fun d => d.ID == B)).map
          (fun d => Dependency.mk A d.Label) := by
  show (getA (buildDownstreamWith (upKeys felts) (buildUpstream felts)) B).filter _
      = ((getA (buildUpstream felts) A).filter (fun d => d.ID == B)).map
          (fun d => Dependency.mk A d.Label)
  rw [getA_buildDownstreamWith,
    flatMap_contrib_filter (buildUpstream felts) A B (upKeys felts) (nodup_upKeys felts)]
  by_cases hA : A ∈ upKeys felts
  · rw [if_pos hA, contribTo]
    exact filterMap_ite_eq_map_filter _ B _
  · rw [if_neg hA]
    have hup : getA (buildUpstream felts) A = [] := by
      simp only [getA]
      rw [(lookupA_eq_none_iff _ _).mpr (by simpa [upKeys] using hA)]
      rfl
    rw [hup]
    simp

/-! Claims about graph construction: C4, C9, C10. -/

/-- Fixture: a single felt `a` whose dependency list mentions `b` twice,
with different labels. -/
def feltsDupDep : List Felt :=
  [Felt.mk "a" "" "" [Dependency.mk "b" "l1", Dependency.mk "b" "l2"] 0]

/-- C4 counterexample: with a duplicated dependency `b` in `upstream[a]`,
the dependent `a` appears twice (not exactly once) in `downstream[b]`. -/
theorem claim_C4_counterexample :
    "b" ∈ (getA (BuildGraph feltsDupDep).Upstream "a").map Dependency.ID ∧
    (getA (BuildGraph feltsDupDep).Downstream "b").countP (fun e => e.ID == "a") = 2 ∧
    (getA (BuildGraph feltsDupDep).Downstream "b").countP (fun e => e.ID == "a") ≠ 1 := by
  refine ⟨?_, ?_, ?_⟩ <;> decide

/-- C4 (amended): for every graph built from any fiber list and every pair
`(A, B)`, the entries of `downstream[B]` pointing at dependent `A` are
exactly one entry `(A, label)` per occurrence of `(B, label)` in
`upstream[A]`, in the same order and with the same labels; in particular
`A` appears in `downstream[B]` exactly as often as `B` appears in
`upstream[A]` (exactly once when the dependency list mentions `B` once). -/
theorem claim_C4_amended (felts : List Felt) (A B : String) :
    (getA (BuildGraph felts).Downstream B).filter (fun e => e.ID == A)
      = ((getA (BuildGraph felts).Upstream A).filter (fun d => d.ID == B)).map
          (fun d => Dependency.mk A d.Label)
    ∧ (getA (BuildGraph felts).Downstream B).countP (fun e => e.ID == A)
      = (getA (BuildGraph felts).Upstream A).countP (fun d => d.ID == B) := by
  refine ⟨downstream_filter_char felts A B, ?_⟩
  rw [List.countP_eq_length_filter, List.countP_eq_length_filter,
    downstream_filter_char felts A B, List.length_map]

/-- C10: when the input fiber list contains several felts with the same id,
`BuildGraph` silently keeps the last one in input order: `nodes[id]` is the
last such felt, `upstream[id]` is its dependency list, and the downstream
edges out of `id` are derived only from that last record (`BuildGraph` is a
total function with no error result). -/
theorem claim_C10_last_wins (felts : List Felt) (id : String) :
    lookupA (BuildGraph felts).Nodes id = felts.reverse.find? (fun f => f.ID == id) ∧
    lookupA (BuildGraph felts).Upstream id
      = (felts.reverse.find? (fun f => f.ID == id)).map Felt.DependsOn ∧
    ∀ k, (getA (BuildGraph felts).Downstream k).filter (fun e => e.ID == id)
      = ((((felts.reverse.find? (fun f => f.ID == id)).map Felt.DependsOn).getD []).filter
          (fun d => d.ID == k)).map (fun d => Dependency.mk id d.Label) := by
  refine ⟨lookupA_buildNodes felts id, lookupA_buildUpstream felts id, fun k => ?_⟩
  have h := downstream_filter_char felts id k
  rw [h]
  have hup : getA (BuildGraph felts).Upstream id
      = (((felts.reverse.find? (fun f => f.ID == id)).map Felt.DependsOn).getD []) := by
    show (lookupA (buildUpstream felts) id).getD [] = _
    rw [lookupA_buildUpstream]
  rw [hup]

/-- Fixture: two felts `x` and `y` both depending on `b`. -/
def feltsTwoDependents : List Felt :=
  [Felt.mk "x" "" "" [Dependency.mk "b" ""] 0,
   Felt.mk "y" "" "" [Dependency.mk "b" ""] 0,
   Felt.mk "b" "" "" [] 0]

/-- C9 counterexample: two runs of `BuildGraph` on the same fiber list may
iterate the `Upstream` map in different (both valid) orders, and then
`downstream[b]` differs between the runs as an ordered sequence. -/
theorem claim_C9_counterexample :
    validOrder ["x", "y", "b"] feltsTwoDependents ∧
    validOrder ["y", "x", "b"] feltsTwoDependents ∧
    getA (BuildGraphWith ["x", "y", "b"] feltsTwoDependents).Downstream "b"
      = [Dependency.mk "x" "", Dependency.mk "y" ""] ∧
    getA (BuildGraphWith ["y", "x", "b"] feltsTwoDependents).Downstream "b"
      = [Dependency.mk "y" "", Dependency.mk "x" ""] ∧
    BuildGraphWith ["x", "y", "b"] feltsTwoDependents
      ≠ BuildGraphWith ["y", "x", "b"] feltsTwoDependents := by
  refine ⟨?_, ?_, ?_, ?_, ?_⟩ <;> decide

/-- C9 (amended): two builds on the same unmodified fiber list produce
identical `nodes` and `upstream` (each `upstream` entry an identical ordered
sequence preserving input order), and `downstream` maps with the same
entries per key, equal as ordered sequences only up to permutation (the
per-key order depends on Go's unspecified map iteration order). -/
theorem claim_C9_amended (felts : List Felt) (o1 o2 : List String)
    (h1 : validOrder o1 felts) (h2 : validOrder o2 felts) :
    (BuildGraphWith o1 felts).Nodes = (BuildGraphWith o2 felts).Nodes ∧
    (BuildGraphWith o1 felts).Upstream = (BuildGraphWith o2 felts).Upstream ∧
    ∀ k, ((getA (BuildGraphWith o1 felts).Downstream k).Perm
          (getA (BuildGraphWith o2 felts).Downstream k)) := by
  refine ⟨rfl, rfl, fun k => ?_⟩
  show (getA (buildDownstreamWith o1 (buildUpstream felts)) k).Perm
       (getA (buildDownstreamWith o2 (buildUpstream felts)) k)
  rw [getA_buildDownstreamWith, getA_buildDownstreamWith]
  exact List.Perm.flatMap_right _ (h1.trans h2.symm)

/-- Witness for the amended C9 theorem at a concrete fiber list and two
concrete valid iteration orders. -/
theorem claim_C9_amended_witness :
    (BuildGraphWith ["x", "y", "b"] feltsTwoDependents).Nodes
      = (BuildGraphWith ["y", "x", "b"] feltsTwoDependents).Nodes ∧
    (BuildGraphWith ["x", "y", "b"] feltsTwoDependents).Upstream
      = (BuildGraphWith ["y", "x", "b"] feltsTwoDependents).Upstream ∧
    ∀ k, ((getA (BuildGraphWith ["x", "y", "b"] feltsTwoDependents).Downstream k).Perm
          (getA (BuildGraphWith ["y", "x", "b"] feltsTwoDependents).Downstream k)) :=
  claim_C9_amended feltsTwoDependents ["x", "y", "b"] ["y", "x", "b"]
    (by decide) (by decide)

/-! BFS traversal (Go `(*Graph).bfs`) and reachability. -/

/-- Inner loop of the Go BFS: walk the adjacency entries of the current
node, marking each not-yet-visited id visited and appending it to the
queue.  Returns the updated `(visited, queue)`. -/
def enqueueNew : List String → List String → List Dependency → List String × List String
  | visited, queue, [] => (visited, queue)
  | visited, queue, dep :: deps =>
      if dep.ID ∈ visited then enqueueNew visited queue deps
      else enqueueNew (dep.ID :: visited) (queue ++ [dep.ID]) deps

/-- All dependency ids appearing as values of an adjacency map: the only
ids the BFS can ever enqueue besides the start node. -/
def allDepIDs (m : List (String × List Dependency)) : List String :=
  m.flatMap (fun p => p.2.map Dependency.ID)

/-- Fuel-bounded core of Go `(*Graph).bfs`: pop the front of the queue,
record it (unless it is the start node), enqueue its unvisited neighbours.
The fuel is a termination device only; `bfs` supplies enough for the loop
to run to completion (see `bfsAux_spec`). -/
def bfsAux (m : List (String × List Dependency)) (start : String) :
    Nat → List String → List String → List String → List String
  | 0, _, _, res => res
  | _ + 1, [], _, res => res
  | fuel + 1, cur :: rest, visited, res =>
      let res' := if cur = start then res else res ++ [cur]
      let vq := enqueueNew visited rest (getA m cur)
      bfsAux m start fuel vq.2 vq.1 res'

/-- Go `(*Graph).bfs`: breadth-first traversal from `start` over the given
adjacency map, the start node excluded from the result. -/
def bfs (m : List (String × List Dependency)) (start : String) : List String :=
  bfsAux m start ((allDepIDs m).length + 2) [start] [start] []

/-- Go `(*Graph).GetUpstream`. -/
def Graph.GetUpstream (g : Graph) (id : String) : List String := bfs g.Upstream id

/-- Go `(*Graph).GetDownstream`. -/
def Graph.GetDownstream (g : Graph) (id : String) : List String := bfs g.Downstream id

/-- Go `(*Graph).DetectCycle` (parameters `from`/`to` renamed `frm`/`dst`):
adding the edge `frm -> dst` would create a cycle iff `frm` is reachable
from `dst`, or `frm == dst`. -/
def Graph.DetectCycle (g : Graph) (frm dst : String) : Bool :=
  (g.GetUpstream dst).contains frm || frm == dst

/-- The ids adjacent to `x` in an adjacency map. -/
def adjIDs (m : List (String × List Dependency)) (x : String) : List String :=
  (getA m x).map Dependency.ID

/-- Reachability along the edges of an adjacency map (zero or more steps). -/
inductive ReachA (m : List (String × List Dependency)) : String → String → Prop
  | refl (x : String) : ReachA m x x
  | step {x y z : String} : ReachA m x y → z ∈ adjIDs m y → ReachA m x z

theorem ReachA.trans_mem {m : List (String × List Dependency)} {x y z : String}
    (hxy : ReachA m x y) (hyz : ReachA m y z) : ReachA m x z := by
  induction hyz with
  | refl => exact hxy
  | step _ hmem ih => exact ReachA.step ih hmem

/-! Specification of `enqueueNew`. -/

theorem enqueueNew_fst_mem (visited queue : List String) (deps : List Dependency)
    (x : String) :
    x ∈ (enqueueNew visited queue deps).1 ↔ x ∈ visited ∨ x ∈ deps.map Dependency.ID := by
  induction deps generalizing visited queue with
  | nil => simp [enqueueNew]
  | cons d ds ih =>
      by_cases h : d.ID ∈ visited
      · rw [enqueueNew, if_pos h, ih]
        simp only [List.map_cons, List.mem_cons]
        constructor
        · rintro (hv | hd)
          · exact Or.inl hv
          · exact Or.inr (Or.inr hd)
        · rintro (hv | hx | hd)
          · exact Or.inl hv
          · exact Or.inl (hx ▸ h)
          · exact Or.inr hd
      · rw [enqueueNew, if_neg h, ih]
        simp only [List.mem_cons, List.map_cons]
        tauto

theorem enqueueNew_snd_mem (visited queue : List String) (deps : List Dependency)
    (x : String) :
    x ∈ (enqueueNew visited queue deps).2
      ↔ x ∈ queue ∨ (x ∈ deps.map Dependency.ID ∧ x ∉ visited) := by
  induction deps generalizing visited queue with
  | nil => simp [enqueueNew]
  | cons d ds ih =>
      by_cases h : d.ID ∈ visited
      · rw [enqueueNew, if_pos h, ih]
        simp only [List.map_cons, List.mem_cons]
        constructor
        · rintro (hq | ⟨hd, hv⟩)
          · exact Or.inl hq
          · exact Or.inr ⟨Or.inr hd, hv⟩
        · rintro (hq | ⟨hx | hd, hv⟩)
          · exact Or.inl hq
          · exact absurd (hx ▸ h) hv
          · exact Or.inr ⟨hd, hv⟩
      · rw [enqueueNew, if_neg h, ih]
        simp only [List.mem_cons, List.mem_append, List.mem_singleton, List.map_cons]
        by_cases hx : x = d.ID
        · subst hx
          simp [h]
        · tauto

theorem enqueueNew_fst_sub (visited queue : List String) (deps : List Dependency)
    (x : String) (h : x ∈ visited) : x ∈ (enqueueNew visited queue deps).1 :=
  (enqueueNew_fst_mem visited queue deps x).mpr (Or.inl h)

theorem enqueueNew_snd_nodup (visited queue : List String) (deps : List Dependency)
    (hq : queue.Nodup) (hsub : ∀ x ∈ queue, x ∈ visited) :
    (enqueueNew visited queue deps).2.Nodup := by
  induction deps generalizing visited queue with
  | nil => simpa [enqueueNew] using hq
  | cons d ds ih =>
      by_cases h : d.ID ∈ visited
      · rw [enqueueNew, if_pos h]
        exact ih visited queue hq hsub
      · rw [enqueueNew, if_neg h]
        refine ih _ _ ?_ ?_
        · refine List.Nodup.append hq (List.nodup_singleton _) ?_
          intro a ha hak
          rw [List.mem_singleton] at hak
          subst hak
          exact h (hsub _ ha)
        · intro x hx
          rcases List.mem_append.mp hx with hx1 | hx2
          · exact List.mem_cons_of_mem _ (hsub _ hx1)
          · rw [List.mem_singleton] at hx2
            exact hx2 ▸ List.mem_cons_self _ _

theorem enqueueNew_snd_sub_fst (visited queue : List String) (deps : List Dependency)
    (hsub : ∀ x ∈ queue, x ∈ visited) :
    ∀ x ∈ (enqueueNew visited queue deps).2, x ∈ (enqueueNew visited queue deps).1 := by
  intro x hx
  rcases (enqueueNew_snd_mem visited queue deps x).mp hx with hq | ⟨hd, _⟩
  · exact (enqueueNew_fst_mem visited queue deps x).mpr (Or.inl (hsub _ hq))
  · exact (enqueueNew_fst_mem visited queue deps x).mpr (Or.inr hd)

theorem enqueueNew_measure (visited queue : List String) (deps : List Dependency)
    (univ : Finset String) (hdeps : ∀ d ∈ deps, d.ID ∈ univ) :
    (univ \ (enqueueNew visited queue deps).1.toFinset).card
        + (enqueueNew visited queue deps).2.length
      ≤ (univ \ visited.toFinset).card + queue.length := by
  induction deps generalizing visited queue with
  | nil => simp [enqueueNew]
  | cons d ds ih =>
      by_cases h : d.ID ∈ visited
      · rw [enqueueNew, if_pos h]
        exact ih visited queue (fun e he => hdeps e (List.mem_cons_of_mem _ he))
      · rw [enqueueNew, if_neg h]
        refine le_trans (ih _ _ (fun e he => hdeps e (List.mem_cons_of_mem _ he))) ?_
        have hd : d.ID ∈ univ := hdeps d (List.mem_cons_self _ _)
        have hcard : (univ \ (d.ID :: visited).toFinset).card + 1
            = (univ \ visited.toFinset).card := by
          have hmem : d.ID ∈ univ \ visited.toFinset := by
            rw [Finset.mem_sdiff]
            exact ⟨hd, by simpa using h⟩
          have : univ \ (d.ID :: visited).toFinset
              = (univ \ visited.toFinset).erase d.ID := by
            ext a
            simp only [List.toFinset_cons, Finset.mem_sdiff, Finset.mem_insert,
              Finset.mem_erase, List.mem_toFinset]
            constructor
            · rintro ⟨ha, hna⟩
              push_neg at hna
              exact ⟨hna.1, ha, by simpa using hna.2⟩
            · rintro ⟨hne, ha, hnv⟩
              exact ⟨ha, by simp [hne, hnv]⟩
          rw [this, Finset.card_erase_of_mem hmem]
          have hpos : 0 < (univ \ visited.toFinset).card :=
            Finset.card_pos.mpr ⟨d.ID, hmem⟩
          omega
        simp only [List.length_append, List.length_singleton]
        omega

theorem lookupA_mem {α : Type} (m : List (String × α)) (k : String) (v : α)
    (h : lookupA m k = some v) : (k, v) ∈ m := by
  induction m with
  | nil => simp [lookupA] at h
  | cons p rest ih =>
      obtain ⟨k', v'⟩ := p
      by_cases hk : k' = k
      · subst hk
        rw [lookupA, if_pos rfl] at h
        simp at h
        simp [h]
      · rw [lookupA, if_neg hk] at h
        exact List.mem_cons_of_mem _ (ih h)

theorem adj_sub_allDepIDs (m : List (String × List Dependency)) (cur : String)
    (d : Dependency) (h : d ∈ getA m cur) : d.ID ∈ allDepIDs m := by
  simp only [getA] at h
  cases hl : lookupA m cur with
  | none => rw [hl] at h; simp at h
  | some v =>
      rw [hl] at h
      simp only [Option.getD_some] at h
      have hm := lookupA_mem m cur v hl
      simp only [allDepIDs, List.mem_flatMap]
      exact ⟨(cur, v), hm, List.mem_map_of_mem Dependency.ID h⟩

/-- Termination measure of the BFS loop: unvisited dependency-id universe
plus queue length. -/
def bfsMeasure (m : List (String × List Dependency)) (queue visited : List String) : Nat :=
  ((allDepIDs m).toFinset \ visited.toFinset).card + queue.length

/-- Invariant-based specification of the BFS loop: with sufficient fuel the
result enumerates exactly one reachable-set `V` minus the start node. -/
theorem bfsAux_spec (m : List (String × List Dependency)) (start : String)
    (fuel : Nat) :
    ∀ (queue visited res : List String),
    bfsMeasure m queue visited ≤ fuel →
    start ∈ visited →
    (∀ x ∈ visited, ReachA m start x) →
    (∀ x ∈ visited, x ∉ queue → ∀ y ∈ adjIDs m x, y ∈ visited) →
    (∀ x ∈ queue, x ∈ visited) →
    (∀ x, x ∈ res ↔ (x ∈ visited ∧ x ∉ queue ∧ x ≠ start)) →
    queue.Nodup →
    ∃ V : Set String,
      (∀ x, x ∈ bfsAux m start fuel queue visited res ↔ x ∈ V ∧ x ≠ start) ∧
      (∀ x ∈ visited, x ∈ V) ∧
      (∀ x ∈ V, ReachA m start x) ∧
      (∀ x ∈ V, ∀ y ∈ adjIDs m x, y ∈ V) := by
  induction fuel with
  | zero =>
      intro queue visited res hfuel h1 h2 h3 h4 h5 h6
      have hq : queue = [] := by
        have : queue.length = 0 := by
          simp only [bfsMeasure] at hfuel
          omega
        exact List.length_eq_zero.mp this
      subst hq
      refine ⟨{x | x ∈ visited}, ?_, fun x hx => hx, fun x hx => h2 x hx, ?_⟩
      · intro x
        rw [bfsAux, h5 x]
        simp
      · intro x hx y hy
        exact h3 x hx (by simp) y hy
  | succ fuel ih =>
      intro queue visited res hfuel h1 h2 h3 h4 h5 h6
      cases queue with
      | nil =>
          refine ⟨{x | x ∈ visited}, ?_, fun x hx => hx, fun x hx => h2 x hx, ?_⟩
          · intro x
            rw [bfsAux, h5 x]
            simp
          · intro x hx y hy
            exact h3 x hx (by simp) y hy
      | cons cur rest =>
          have hsub_rest : ∀ x ∈ rest, x ∈ visited :=
            fun x hx => h4 x (List.mem_cons_of_mem _ hx)
          have hcurv : cur ∈ visited := h4 cur (List.mem_cons_self _ _)
          have hfst := fun x => enqueueNew_fst_mem visited rest (getA m cur) x
          have hsnd := fun x => enqueueNew_snd_mem visited rest (getA m cur) x
          have hcur_nr : cur ∉ rest := (List.nodup_cons.mp h6).1
          -- start still visited
          have h1' : start ∈ (enqueueNew visited rest (getA m cur)).1 :=
            enqueueNew_fst_sub _ _ _ _ h1
          -- everything visited is reachable
          have h2' : ∀ x ∈ (enqueueNew visited rest (getA m cur)).1, ReachA m start x := by
            intro x hx
            rcases (hfst x).mp hx with hv | hmap
            · exact h2 x hv
            · exact ReachA.step (h2 cur hcurv) (by simpa [adjIDs] using hmap)
          -- processed nodes have all neighbours visited
          have h3' : ∀ x ∈ (enqueueNew visited rest (getA m cur)).1,
              x ∉ (enqueueNew visited rest (getA m cur)).2 →
              ∀ y ∈ adjIDs m x, y ∈ (enqueueNew visited rest (getA m cur)).1 := by
            intro x hx hnq y hy
            by_cases hxc : x = cur
            · subst hxc
              exact (hfst y).mpr (Or.inr (by simpa [adjIDs] using hy))
            · by_cases hv : x ∈ visited
              · have hnold : x ∉ cur :: rest := by
                  intro hc
                  rcases List.mem_cons.mp hc with h1c | h2c
                  · exact hxc h1c
                  · exact hnq ((hsnd x).mpr (Or.inl h2c))
                exact (hfst y).mpr (Or.inl (h3 x hv hnold y hy))
              · rcases (hfst x).mp hx with hv2 | hmap
                · exact absurd hv2 hv
                · exact absurd ((hsnd x).mpr (Or.inr ⟨hmap, hv⟩)) hnq
          -- the queue is visited
          have h4' : ∀ x ∈ (enqueueNew visited rest (getA m cur)).2,
              x ∈ (enqueueNew visited rest (getA m cur)).1 :=
            enqueueNew_snd_sub_fst visited rest (getA m cur) hsub_rest
          -- result bookkeeping
          have h5' : ∀ x, x ∈ (if cur = start then res else res ++ [cur]) ↔
              (x ∈ (enqueueNew visited rest (getA m cur)).1 ∧
               x ∉ (enqueueNew visited rest (getA m cur)).2 ∧ x ≠ start) := by
            intro x
            have hmem_res : x ∈ res →
                (x ∈ (enqueueNew visited rest (getA m cur)).1 ∧
                 x ∉ (enqueueNew visited rest (getA m cur)).2 ∧ x ≠ start) := by
              intro hx
              obtain ⟨hxv, hxnq, hxs⟩ := (h5 x).mp hx
              refine ⟨(hfst x).mpr (Or.inl hxv), ?_, hxs⟩
              intro hc
              rcases (hsnd x).mp hc with hr | ⟨_, hnv⟩
              · exact hxnq (List.mem_cons_of_mem _ hr)
              · exact hnv hxv
            have hback : x ≠ cur →
                (x ∈ (enqueueNew visited rest (getA m cur)).1 ∧
                 x ∉ (enqueueNew visited rest (getA m cur)).2 ∧ x ≠ start) → x ∈ res := by
              rintro hxc ⟨hxv, hxnq, hxs⟩
              by_cases hv : x ∈ visited
              · refine (h5 x).mpr ⟨hv, ?_, hxs⟩
                intro hc
                rcases List.mem_cons.mp hc with h1c | h2c
                · exact hxc h1c
                · exact hxnq ((hsnd x).mpr (Or.inl h2c))
              · rcases (hfst x).mp hxv with hv2 | hmap
                · exact absurd hv2 hv
                · exact absurd ((hsnd x).mpr (Or.inr ⟨hmap, hv⟩)) hxnq
            by_cases hcs : cur = start
            · rw [if_pos hcs]
              constructor
              · exact hmem_res
              · intro hx
                refine hback ?_ hx
                intro hxc
                exact hx.2.2 (hxc.trans hcs)
            · rw [if_neg hcs]
              constructor
              · intro hx
                rcases List.mem_append.mp hx with hr | hc
                · exact hmem_res hr
                · rw [List.mem_singleton] at hc
                  subst hc
                  refine ⟨(hfst x).mpr (Or.inl hcurv), ?_, hcs⟩
                  intro hcq
                  rcases (hsnd x).mp hcq with hr | ⟨_, hnv⟩
                  · exact hcur_nr hr
                  · exact hnv hcurv
              · intro hx
                by_cases hxc : x = cur
                · subst hxc
                  exact List.mem_append.mpr (Or.inr (List.mem_singleton.mpr rfl))
                · exact List.mem_append.mpr (Or.inl (hback hxc hx))
          -- queue stays duplicate-free
          have h6' : (enqueueNew visited rest (getA m cur)).2.Nodup :=
            enqueueNew_snd_nodup visited rest (getA m cur) (List.nodup_cons.mp h6).2
              hsub_rest
          -- the measure strictly decreased
          have hdeps : ∀ d ∈ getA m cur, d.ID ∈ (allDepIDs m).toFinset := by
            intro d hd
            rw [List.mem_toFinset]
            exact adj_sub_allDepIDs m cur d hd
          have hme := enqueueNew_measure visited rest (getA m cur)
            (allDepIDs m).toFinset hdeps
          have hfuel' : bfsMeasure m (enqueueNew visited rest (getA m cur)).2
              (enqueueNew visited rest (getA m cur)).1 ≤ fuel := by
            simp only [bfsMeasure, List.length_cons] at hfuel ⊢
            omega
          obtain ⟨V, hVres, hVvis, hVreach, hVcl⟩ :=
            ih (enqueueNew visited rest (getA m cur)).2
              (enqueueNew visited rest (getA m cur)).1
              (if cur = start then res else res ++ [cur])
              hfuel' h1' h2' h3' h4' h5' h6'
          refine ⟨V, ?_, fun x hx => hVvis x ((hfst x).mpr (Or.inl hx)), hVreach, hVcl⟩
          intro x
          rw [bfsAux]
          exact hVres x

/-- Membership in the Go BFS result: exactly the nodes reachable from
`start` over the adjacency map, the start node itself excluded. -/
theorem bfs_mem (m : List (String × List Dependency)) (start x : String) :
    x ∈ bfs m start ↔ x ≠ start ∧ ReachA m start x := by
  have hfuel : bfsMeasure m [start] [start] ≤ (allDepIDs m).length + 2 := by
    simp only [bfsMeasure, List.length_singleton]
    have h1 : ((allDepIDs m).toFinset \ [start].toFinset).card
        ≤ (allDepIDs m).toFinset.card :=
      Finset.card_le_card (Finset.sdiff_subset)
    have h2 : (allDepIDs m).toFinset.card ≤ (allDepIDs m).length :=
      List.toFinset_card_le _
    omega
  obtain ⟨V, hres, hvis, hreach, hcl⟩ :=
    bfsAux_spec m start ((allDepIDs m).length + 2) [start] [start] [] hfuel
      (List.mem_singleton.mpr rfl)
      (by
        intro y hy
        rw [List.mem_singleton] at hy
        subst hy
        exact ReachA.refl _)
      (by
        intro y hy hnq
        rw [List.mem_singleton] at hy
        exact absurd (hy ▸ List.mem_singleton.mpr rfl) hnq)
      (fun y hy => hy)
      (by
        intro y
        constructor
        · intro hy
          simp at hy
        · rintro ⟨hyv, hynq, _⟩
          exact absurd hyv hynq)
      (List.nodup_singleton _)
  constructor
  · intro hx
    obtain ⟨hxV, hxs⟩ := (hres x).mp hx
    exact ⟨hxs, hreach x hxV⟩
  · rintro ⟨hxs, hr⟩
    have haux : ∀ y, ReachA m start y → y ∈ V := by
      intro y hy
      induction hy with
      | refl => exact hvis start (List.mem_singleton.mpr rfl)
      | step _ hmem ihy => exact hcl _ ihy _ hmem
    exact (hres x).mpr ⟨haux x hr, hxs⟩

/-- C1: for every graph built from any fiber list, `DetectCycle frm dst` is
true iff `frm = dst` or `frm` is reachable from `dst` over the graph's
existing upstream edges; in particular `DetectCycle X X` is true for every
id `X`, including ids not present in the graph. -/
theorem claim_C1_wouldCreateCycle (felts : List Felt) :
    (∀ frm dst, (BuildGraph felts).DetectCycle frm dst = true
        ↔ (frm = dst ∨ ReachA (BuildGraph felts).Upstream dst frm))
    ∧ (∀ X, (BuildGraph felts).DetectCycle X X = true) := by
  have hmain : ∀ frm dst, (BuildGraph felts).DetectCycle frm dst = true
      ↔ (frm = dst ∨ ReachA (BuildGraph felts).Upstream dst frm) := by
    intro frm dst
    have hbfs := bfs_mem (BuildGraph felts).Upstream dst frm
    simp only [Graph.DetectCycle, Graph.GetUpstream, Bool.or_eq_true, beq_iff_eq,
      List.elem_iff]
    rw [hbfs]
    constructor
    · rintro (⟨hne, hr⟩ | heq)
      · exact Or.inr hr
      · exact Or.inl heq
    · rintro (heq | hr)
      · exact Or.inr heq
      · by_cases heq : frm = dst
        · exact Or.inr heq
        · exact Or.inl ⟨heq, hr⟩
  refine ⟨hmain, fun X => (hmain X X).mpr (Or.inl rfl)⟩

/-- Fixture: a graph with exactly one edge, `a` depends on `b`. -/
def feltsEdgeAB : List Felt :=
  [Felt.mk "a" "" "" [Dependency.mk "b" ""] 0, Felt.mk "b" "" "" [] 0]

/-- C7 counterexample: with only the edge `a -> b` (`a` depends on `b`),
re-adding `a -> b` does NOT report a cycle: `DetectCycle "a" "b"` is
`false`, while the claim asserts it is true. -/
theorem claim_C7_counterexample :
    getA (BuildGraph feltsEdgeAB).Upstream "a" = [Dependency.mk "b" ""] ∧
    (BuildGraph feltsEdgeAB).DetectCycle "a" "b" = false := by
  refine ⟨?_, ?_⟩ <;> decide

/-- C7 (amended): over the graph containing exactly the edge `a -> b`,
`DetectCycle "b" "a"` is true (the reverse edge would close a loop);
`DetectCycle "a" "b"` (re-adding the existing edge) is false — a duplicate
edge creates no cycle; and `DetectCycle "b" "c"`, where no path from `c`
to `b` exists, is false. -/
theorem claim_C7_amended :
    (BuildGraph feltsEdgeAB).DetectCycle "b" "a" = true ∧
    (BuildGraph feltsEdgeAB).DetectCycle "a" "b" = false ∧
    (BuildGraph feltsEdgeAB).DetectCycle "b" "c" = false := by
  refine ⟨?_, ?_, ?_⟩ <;> decide

/-! Depth-limited traversal (`GetUpstreamN` / `GetDownstreamN`).

The CLI (`graph.go` commands file) calls `g.GetUpstreamN(id, depth)` and
`g.GetDownstreamN(id, depth)`, but these two methods are not part of the
sources available here; they are modelled from the spec below. -/

/-- Modelled from the spec: inner step of the depth-limited BFS, identical
to `enqueueNew` except that enqueued nodes carry their discovery depth
(`GetUpstreamN` is missing from the available sources). -/
def enqueueNewD : List String → List (String × Nat) → Nat → List Dependency →
    List String × List (String × Nat)
  | visited, queue, _, [] => (visited, queue)
  | visited, queue, d, dep :: deps =>
      if dep.ID ∈ visited then enqueueNewD visited queue d deps
      else enqueueNewD (dep.ID :: visited) (queue ++ [(dep.ID, d)]) d deps

/-- Modelled from the spec: core loop of the depth-limited BFS.  A node at
depth `d` is expanded iff the limit is 0 (unlimited) or `d < limit`; nodes
already enqueued at the limit depth are still returned
(`GetUpstreamN` is missing from the available sources). -/
def bfsDepthAux (m : List (String × List Dependency)) (start : String) (limit : Nat) :
    Nat → List (String × Nat) → List String → List String → List String
  | 0, _, _, res => res
  | _ + 1, [], _, res => res
  | fuel + 1, (cur, d) :: rest, visited, res =>
      let res' := if cur = start then res else res ++ [cur]
      if limit = 0 ∨ d < limit then
        let vq := enqueueNewD visited rest (d + 1) (getA m cur)
        bfsDepthAux m start limit fuel vq.2 vq.1 res'
      else
        bfsDepthAux m start limit fuel rest visited res'

/-- Modelled from the spec: depth-limited BFS from `start`; depth limit 0
means the full transitive closure (`GetUpstreamN` is missing from the
available sources). -/
def bfsDepth (m : List (String × List Dependency)) (start : String) (limit : Nat) :
    List String :=
  bfsDepthAux m start limit ((allDepIDs m).length + 2) [(start, 0)] [start] []

/-- Modelled from the spec: `GetUpstreamN` — ancestor traversal with an
optional depth limit (1 = direct dependencies only, 0 = full transitive
closure); absent from the available sources, which only call it. -/
def Graph.GetUpstreamN (g : Graph) (id : String) (depth : Nat) : List String :=
  bfsDepth g.Upstream id depth

/-- Modelled from the spec: `GetDownstreamN` — descendant traversal with an
optional depth limit (1 = direct dependents only, 0 = full transitive
closure); absent from the available sources, which only call it. -/
def Graph.GetDownstreamN (g : Graph) (id : String) (depth : Nat) : List String :=
  bfsDepth g.Downstream id depth

/-- The depth-annotated enqueue step agrees with the plain one after
erasing depths. -/
theorem enqueueNewD_map_fst (deps : List Dependency) :
    ∀ (visited : List String) (queue : List (String × Nat)) (d : Nat),
    (enqueueNewD visited queue d deps).1
        = (enqueueNew visited (queue.map Prod.fst) deps).1 ∧
    (enqueueNewD visited queue d deps).2.map Prod.fst
        = (enqueueNew visited (queue.map Prod.fst) deps).2 := by
  induction deps with
  | nil => intro visited queue d; simp [enqueueNewD, enqueueNew]
  | cons dep ds ih =>
      intro visited queue d
      by_cases h : dep.ID ∈ visited
      · rw [enqueueNewD, if_pos h, enqueueNew, if_pos h]
        exact ih visited queue d
      · rw [enqueueNewD, if_neg h, enqueueNew, if_neg h]
        have := ih (dep.ID :: visited) (queue ++ [(dep.ID, d)]) d
        simpa [List.map_append] using this

/-- With limit 0 the depth-limited BFS is the Go BFS. -/
theorem bfsDepthAux_zero (m : List (String × List Dependency)) (start : String) :
    ∀ (fuel : Nat) (queue : List (String × Nat)) (visited res : List String),
    bfsDepthAux m start 0 fuel queue visited res
      = bfsAux m start fuel (queue.map Prod.fst) visited res := by
  intro fuel
  induction fuel with
  | zero => intro queue visited res; rfl
  | succ fuel ih =>
      intro queue visited res
      cases queue with
      | nil => rfl
      | cons p rest =>
          obtain ⟨cur, d⟩ := p
          simp only [List.map_cons]
          rw [bfsDepthAux, bfsAux]
          rw [if_pos (Or.inl rfl)]
          obtain ⟨h1, h2⟩ := enqueueNewD_map_fst (getA m cur) visited rest (d + 1)
          rw [ih, h1, h2]

/-- `bfsDepth` at limit 0 is exactly the Go `bfs`. -/
theorem bfsDepth_zero (m : List (String × List Dependency)) (start : String) :
    bfsDepth m start 0 = bfs m start := by
  unfold bfsDepth bfs
  rw [bfsDepthAux_zero]
  rfl

/-- Entries the depth-annotated step enqueues carry the given depth. -/
theorem enqueueNewD_snd_entries (deps : List Dependency) :
    ∀ (visited : List String) (queue : List (String × Nat)) (d : Nat),
    ∀ p ∈ (enqueueNewD visited queue d deps).2, p ∈ queue ∨ p.2 = d := by
  induction deps with
  | nil => intro visited queue d p hp; exact Or.inl (by simpa [enqueueNewD] using hp)
  | cons dep ds ih =>
      intro visited queue d p hp
      by_cases h : dep.ID ∈ visited
      · rw [enqueueNewD, if_pos h] at hp
        exact ih visited queue d p hp
      · rw [enqueueNewD, if_neg h] at hp
        rcases ih (dep.ID :: visited) (queue ++ [(dep.ID, d)]) d p hp with hq | hd
        · rcases List.mem_append.mp hq with hq1 | hq2
          · exact Or.inl hq1
          · rw [List.mem_singleton] at hq2
            subst hq2
            exact Or.inr rfl
        · exact Or.inr hd

/-- The depth-annotated step enqueues at most one node per dependency. -/
theorem enqueueNewD_snd_length (deps : List Dependency) :
    ∀ (visited : List String) (queue : List (String × Nat)) (d : Nat),
    (enqueueNewD visited queue d deps).2.length ≤ queue.length + deps.length := by
  induction deps with
  | nil => intro visited queue d; simp [enqueueNewD]
  | cons dep ds ih =>
      intro visited queue d
      by_cases h : dep.ID ∈ visited
      · rw [enqueueNewD, if_pos h]
        have := ih visited queue d
        simp only [List.length_cons]
        omega
      · rw [enqueueNewD, if_neg h]
        have h2 := ih (dep.ID :: visited) (queue ++ [(dep.ID, d)]) d
        have h3 : (queue ++ [(dep.ID, d)]).length = queue.length + 1 := by simp
        rw [h3] at h2
        simp only [List.length_cons]
        omega

/-- An adjacency entry is never longer than the whole dependency-id list. -/
theorem getA_length_le (m : List (String × List Dependency)) (s : String) :
    (getA m s).length ≤ (allDepIDs m).length := by
  unfold getA
  cases hl : lookupA m s with
  | none => simp
  | some v =>
      have hm := lookupA_mem m s v hl
      simp only [Option.getD_some]
      have hlen : (v.map Dependency.ID).length ∈
          ((m.map (List.length ∘ fun p => p.2.map Dependency.ID))) := by
        exact List.mem_map_of_mem _ hm
      have hle : (v.map Dependency.ID).length
          ≤ (m.map (List.length ∘ fun p => p.2.map Dependency.ID)).sum :=
        List.le_sum_of_mem hlen
      rw [List.length_map] at hle
      calc v.length = (v.map Dependency.ID).length := (List.length_map _ _).symm
        _ ≤ _ := by
            rw [allDepIDs, List.length_flatMap]
            simpa using hle

/-- Once every queued node is at or beyond the limit, the loop only drains
the queue into the result. -/
theorem bfsDepthAux_drain (m : List (String × List Dependency)) (start : String)
    (limit : Nat) (hlim : limit ≠ 0) :
    ∀ (queue : List (String × Nat)) (fuel : Nat) (visited res : List String),
    queue.length ≤ fuel →
    (∀ p ∈ queue, ¬p.2 < limit) →
    bfsDepthAux m start limit fuel queue visited res
      = res ++ (queue.map Prod.fst).filter (fun x => x != start) := by
  intro queue
  induction queue with
  | nil =>
      intro fuel visited res hf hall
      cases fuel with
      | zero => simp [bfsDepthAux]
      | succ fuel => simp [bfsDepthAux]
  | cons p rest ih =>
      obtain ⟨cur, d⟩ := p
      intro fuel visited res hf hall
      cases fuel with
      | zero => simp at hf
      | succ fuel =>
          rw [bfsDepthAux]
          have hd : ¬d < limit := hall (cur, d) (List.mem_cons_self _ _)
          rw [if_neg (by
            rintro (h0 | hlt)
            · exact hlim h0
            · exact hd hlt)]
          rw [ih fuel visited _ (by simpa using Nat.le_of_succ_le_succ hf)
            (fun q hq => hall q (List.mem_cons_of_mem _ hq))]
          by_cases hc : cur = start
          · subst hc
            simp
          · have hbne : (cur != start) = true := by simpa using hc
            rw [if_neg hc]
            simp [List.filter_cons, hbne]

/-- Depth limit 1 returns exactly the direct neighbours, start excluded. -/
theorem bfsDepth_one_mem (m : List (String × List Dependency)) (s x : String) :
    x ∈ bfsDepth m s 1 ↔ x ∈ adjIDs m s ∧ x ≠ s := by
  have hstep : bfsDepth m s 1
      = bfsDepthAux m s 1 ((allDepIDs m).length + 1)
          (enqueueNewD [s] [] 1 (getA m s)).2 (enqueueNewD [s] [] 1 (getA m s)).1 [] := by
    show bfsDepthAux m s 1 (((allDepIDs m).length + 1) + 1) [(s, 0)] [s] [] = _
    rw [bfsDepthAux]
    simp
  have hall : ∀ p ∈ (enqueueNewD [s] [] 1 (getA m s)).2, ¬p.2 < 1 := by
    intro p hp
    rcases enqueueNewD_snd_entries (getA m s) [s] [] 1 p hp with h0 | h1
    · simp at h0
    · omega
  have hlen : (enqueueNewD [s] [] 1 (getA m s)).2.length ≤ (allDepIDs m).length + 1 := by
    have h1 := enqueueNewD_snd_length (getA m s) [s] [] 1
    have h2 := getA_length_le m s
    simp only [List.length_nil] at h1
    omega
  rw [hstep, bfsDepthAux_drain m s 1 one_ne_zero _ _ _ _ hlen hall]
  obtain ⟨hf1, hf2⟩ := enqueueNewD_map_fst (getA m s) [s] [] 1
  simp only [List.map_nil] at hf2
  rw [hf2]
  simp only [List.nil_append, List.mem_filter]
  rw [enqueueNew_snd_mem]
  simp only [List.not_mem_nil, false_or, List.mem_singleton, bne_iff_ne, ne_eq]
  show (x ∈ (getA m s).map Dependency.ID ∧ ¬x = s) ∧ ¬x = s
      ↔ x ∈ adjIDs m s ∧ ¬x = s
  rw [adjIDs]
  tauto

/-- Fixture: chain a <- b <- c <- d (d depends on c, c on b, b on a). -/
def feltsChain : List Felt :=
  [Felt.mk "a" "" "" [] 0,
   Felt.mk "b" "" "" [Dependency.mk "a" ""] 1,
   Felt.mk "c" "" "" [Dependency.mk "b" ""] 2,
   Felt.mk "d" "" "" [Dependency.mk "c" ""] 3]

/-- C6: the ancestor and descendant traversals accept a depth limit: with
depth 1 they return exactly the direct neighbours (the start node, as
always, excluded), with depth 0 (unset) the full transitive closure in BFS
order minus the start node; on the chain a <- b <- c <- d, unbounded
`GetUpstreamN d` is exactly `[c, b, a]` and depth-1 exactly `[c]`.
`GetUpstreamN`/`GetDownstreamN` are modelled from the spec, the sources
only calling them. -/
theorem claim_C6_depth_traversal :
    (∀ (g : Graph) (id x : String),
        x ∈ g.GetUpstreamN id 1 ↔ x ∈ adjIDs g.Upstream id ∧ x ≠ id)
    ∧ (∀ (g : Graph) (id x : String),
        x ∈ g.GetDownstreamN id 1 ↔ x ∈ adjIDs g.Downstream id ∧ x ≠ id)
    ∧ (∀ (g : Graph) (id x : String),
        x ∈ g.GetUpstreamN id 0 ↔ x ≠ id ∧ ReachA g.Upstream id x)
    ∧ (∀ (g : Graph) (id x : String),
        x ∈ g.GetDownstreamN id 0 ↔ x ≠ id ∧ ReachA g.Downstream id x)
    ∧ (BuildGraph feltsChain).GetUpstreamN "d" 0 = ["c", "b", "a"]
    ∧ (BuildGraph feltsChain).GetUpstreamN "d" 1 = ["c"] := by
  refine ⟨?_, ?_, ?_, ?_, by decide, by decide⟩
  · intro g id x
    exact bfsDepth_one_mem g.Upstream id x
  · intro g id x
    exact bfsDepth_one_mem g.Downstream id x
  · intro g id x
    rw [Graph.GetUpstreamN, bfsDepth_zero]
    exact bfs_mem _ id x
  · intro g id x
    rw [Graph.GetDownstreamN, bfsDepth_zero]
    exact bfs_mem _ id x

/-! Readiness (Go `(*Graph).Ready`). -/

/-- Dependency check of the Go `Ready` loop: every dependency id must
resolve to a node that is closed; a missing dependency fails the check. -/
def allDepsClosed (g : Graph) (deps : List Dependency) : Bool :=
  deps.all (fun d =>
    match lookupA g.Nodes d.ID with
    | some dep => dep.IsClosed
    | none => false)

/-- Filtering pass of Go `(*Graph).Ready`: keep the open felts whose
dependencies are all closed.  Go iterates the `Nodes` map in unspecified
order; the canonical insertion order is used here (the final result is a
sort of this order-insensitive filter). -/
def readyList (g : Graph) : List Felt :=
  g.Nodes.foldl
    (fun acc p => if p.2.IsOpen && allDepsClosed g p.2.DependsOn
      then acc ++ [p.2] else acc) []

/-- Go `(*Graph).Ready`: the ready felts sorted by creation time. -/
def Graph.Ready (g : Graph) : List Felt :=
  List.insertionSort (fun f1 f2 => f1.CreatedAt ≤ f2.CreatedAt) (readyList g)

instance relCreatedAt_total :
    IsTotal Felt (fun f1 f2 => f1.CreatedAt ≤ f2.CreatedAt) :=
  ⟨fun a b => Nat.le_total a.CreatedAt b.CreatedAt⟩

instance relCreatedAt_trans :
    IsTrans Felt (fun f1 f2 => f1.CreatedAt ≤ f2.CreatedAt) :=
  ⟨fun _ _ _ h1 h2 => Nat.le_trans h1 h2⟩

/-- Membership in a filtering fold. -/
theorem mem_foldl_filter_append {α β : Type} (cond : β → Bool) (val : β → α)
    (l : List β) : ∀ (acc : List α) (x : α),
    x ∈ l.foldl (fun acc b => if cond b then acc ++ [val b] else acc) acc
      ↔ x ∈ acc ∨ ∃ b ∈ l, cond b ∧ x = val b := by
  induction l with
  | nil => intro acc x; simp
  | cons b rest ih =>
      intro acc x
      simp only [List.foldl_cons]
      by_cases hc : cond b
      · rw [if_pos hc, ih]
        simp only [List.mem_append, List.mem_cons, List.not_mem_nil, or_false]
        constructor
        · rintro ((hx | hx) | ⟨b2, hb2, hc2, hv2⟩)
          · exact Or.inl hx
          · exact Or.inr ⟨b, Or.inl rfl, hc, hx⟩
          · exact Or.inr ⟨b2, Or.inr hb2, hc2, hv2⟩
        · rintro (hx | ⟨b2, hb2 | hb2, hc2, hv2⟩)
          · exact Or.inl (Or.inl hx)
          · subst hb2
            exact Or.inl (Or.inr hv2)
          · exact Or.inr ⟨b2, hb2, hc2, hv2⟩
      · rw [if_neg hc, ih]
        simp only [List.mem_cons]
        constructor
        · rintro (hx | ⟨b2, hb2, hc2, hv2⟩)
          · exact Or.inl hx
          · exact Or.inr ⟨b2, Or.inr hb2, hc2, hv2⟩
        · rintro (hx | ⟨b2, hb2 | hb2, hc2, hv2⟩)
          · exact Or.inl hx
          · subst hb2
            exact absurd hc2 (by simpa using hc)
          · exact Or.inr ⟨b2, hb2, hc2, hv2⟩

/-- The boolean dependency check matches its logical reading. -/
theorem allDepsClosed_iff (g : Graph) (deps : List Dependency) :
    allDepsClosed g deps = true
      ↔ ∀ d ∈ deps, ∃ fd : Felt,
          lookupA g.Nodes d.ID = some fd ∧ fd.Status = StatusClosed := by
  rw [allDepsClosed, List.all_eq_true]
  constructor
  · intro h d hd
    have := h d hd
    cases hl : lookupA g.Nodes d.ID with
    | none => rw [hl] at this; simp at this
    | some fd =>
        rw [hl] at this
        simp only at this
        exact ⟨fd, rfl, by simpa [Felt.IsClosed] using this⟩
  · intro h d hd
    obtain ⟨fd, hl, hs⟩ := h d hd
    rw [hl]
    simpa [Felt.IsClosed] using hs

/-- C2: `Ready` returns exactly the felts stored in `nodes` whose status is
exactly `open` and whose dependency references all resolve to nodes with
status `closed` (a missing dependency disqualifies; active, closed and
status-less felts never qualify), and the result is sorted by creation
time, earliest first. -/
theorem claim_C2_ready (felts : List Felt) :
    (∀ f : Felt, f ∈ (BuildGraph felts).Ready ↔
        (lookupA (BuildGraph felts).Nodes f.ID = some f ∧ f.Status = StatusOpen ∧
         ∀ d ∈ f.DependsOn, ∃ fd : Felt,
           lookupA (BuildGraph felts).Nodes d.ID = some fd ∧ fd.Status = StatusClosed))
    ∧ List.Sorted (fun f1 f2 => f1.CreatedAt ≤ f2.CreatedAt)
        (BuildGraph felts).Ready := by
  constructor
  · intro f
    have hperm := List.perm_insertionSort
      (fun f1 f2 : Felt => f1.CreatedAt ≤ f2.CreatedAt) (readyList (BuildGraph felts))
    rw [Graph.Ready, hperm.mem_iff, readyList,
      mem_foldl_filter_append
        (fun p => p.2.IsOpen && allDepsClosed (BuildGraph felts) p.2.DependsOn)
        (fun p => p.2) (BuildGraph felts).Nodes []]
    simp only [List.not_mem_nil, false_or, Bool.and_eq_true]
    constructor
    · rintro ⟨p, hp, ⟨hopen, hdeps⟩, hval⟩
      obtain ⟨k, f2⟩ := p
      simp only at hval
      subst hval
      have hkey : k = f.ID := key_eq_id_buildNodes felts k f hp
      subst hkey
      refine ⟨(mem_iff_lookupA _ _ _ (nodup_keys_buildNodes felts)).mp hp, ?_, ?_⟩
      · simpa [Felt.IsOpen] using hopen
      · exact (allDepsClosed_iff _ _).mp hdeps
    · rintro ⟨hlk, hst, hdeps⟩
      refine ⟨(f.ID, f), (mem_iff_lookupA _ _ _ (nodup_keys_buildNodes felts)).mpr hlk,
        ⟨by simpa [Felt.IsOpen] using hst, (allDepsClosed_iff _ _).mpr hdeps⟩, rfl⟩
  · exact List.sorted_insertionSort _ _

/-! Shortest path (Go `(*Graph).FindPath`). -/

/-- Parent-map read with Go's zero-value semantics: a missing key reads
as the empty string (Go `parent[p]` for an absent key). -/
def getS (m : List (String × String)) (k : String) : String :=
  (lookupA m k).getD ""

/-- Path reconstruction of Go `FindPath`: starting from `parent[to]`,
prepend nodes while the parent pointer is non-empty
(`for p := parent[to]; p != ""; p = parent[p]`). -/
def reconstruct (parent : List (String × String)) :
    Nat → String → List String → List String
  | 0, _, path => path
  | fuel + 1, p, path =>
      if p = "" then path else reconstruct parent fuel (getS parent p) (p :: path)

/-- Inner dependency loop of Go `FindPath`: walk the dependencies of the
current node, marking fresh ids visited and recording their parent; if the
target is discovered, reconstruct and return the path (`Sum.inl`),
otherwise return the updated `(visited, parent, queue)`. -/
def findPathStep (dst cur : String) :
    List Dependency → List String → List (String × String) → List String →
    Sum (List String) (List String × List (String × String) × List String)
  | [], visited, parent, queue => Sum.inr (visited, parent, queue)
  | dep :: deps, visited, parent, queue =>
      if dep.ID ∈ visited then findPathStep dst cur deps visited parent queue
      else
        if dep.ID = dst then
          Sum.inl (reconstruct (parent ++ [(dep.ID, cur)])
            ((parent ++ [(dep.ID, cur)]).length + 1)
            (getS (parent ++ [(dep.ID, cur)]) dst) [dst])
        else
          findPathStep dst cur deps (dep.ID :: visited)
            (parent ++ [(dep.ID, cur)]) (queue ++ [dep.ID])

/-- Outer BFS loop of Go `FindPath`, fuel-bounded like `bfsAux`. -/
def findPathAux (m : List (String × List Dependency)) (dst : String) :
    Nat → List String → List String → List (String × String) → Option (List String)
  | 0, _, _, _ => none
  | _ + 1, [], _, _ => none
  | fuel + 1, cur :: rest, visited, parent =>
      match findPathStep dst cur (getA m cur) visited parent rest with
      | Sum.inl path => some path
      | Sum.inr (visited', parent', queue') =>
          findPathAux m dst fuel queue' visited' parent'

/-- Go `(*Graph).FindPath` (parameters `from`/`to` renamed `frm`/`dst`):
the dependency path from `frm` to `dst`, or `none` ("no path", Go `nil`). -/
def Graph.FindPath (g : Graph) (frm dst : String) : Option (List String) :=
  if frm = dst then some [frm]
  else findPathAux g.Upstream dst ((allDepIDs g.Upstream).length + 2) [frm] [frm] []

/-- Every dependency reference in the adjacency map has a non-empty id
(the side condition under which Go's ""-terminated path reconstruction is
faithful). -/
def NonEmptyIDs (m : List (String × List Dependency)) : Prop :=
  ∀ p ∈ m, ∀ d ∈ p.2, d.ID ≠ ""

instance NonEmptyIDs.decidable (m : List (String × List Dependency)) :
    Decidable (NonEmptyIDs m) := by
  unfold NonEmptyIDs
  infer_instance

theorem nonEmpty_of_getA (m : List (String × List Dependency)) (hm : NonEmptyIDs m)
    (cur : String) (d : Dependency) (hd : d ∈ getA m cur) : d.ID ≠ "" := by
  simp only [getA] at hd
  cases hl : lookupA m cur with
  | none => rw [hl] at hd; simp at hd
  | some v =>
      rw [hl] at hd
      simp only [Option.getD_some] at hd
      exact hm (cur, v) (lookupA_mem m cur v hl) d hd

/-- Invariant of the parent map built by `FindPath`: keys are unique
non-empty ids distinct from the start node, each entry records a real
upstream edge, and each parent value was discovered strictly earlier. -/
def ParentInv (m : List (String × List Dependency)) (frm : String)
    (pl : List (String × String)) : Prop :=
  (keysA pl).Nodup ∧
  ∀ x v, (x, v) ∈ pl →
    x ∈ adjIDs m v ∧ x ≠ frm ∧ x ≠ "" ∧
    (v = frm ∨ (v ∈ keysA pl ∧ (keysA pl).indexOf v < (keysA pl).indexOf x))

theorem keysA_append {α : Type} (l1 l2 : List (String × α)) :
    keysA (l1 ++ l2) = keysA l1 ++ keysA l2 := by
  simp [keysA]

theorem frm_not_in_keys (m : List (String × List Dependency)) (frm : String)
    (pl : List (String × String)) (hinv : ParentInv m frm pl) : frm ∉ keysA pl := by
  intro hmem
  simp only [keysA, List.mem_map] at hmem
  obtain ⟨⟨x, v⟩, hxv, hx⟩ := hmem
  exact ((hinv.2 x v hxv).2.1) (by simpa using hx)

/-- Appending a freshly discovered node preserves the parent invariant. -/
theorem ParentInv.append (m : List (String × List Dependency)) (frm : String)
    (pl : List (String × String)) (y cur : String)
    (hinv : ParentInv m frm pl)
    (hy_fresh : y ∉ keysA pl) (hy_frm : y ≠ frm) (hy_ne : y ≠ "")
    (hy_adj : y ∈ adjIDs m cur)
    (hcur : cur = frm ∨ cur ∈ keysA pl) :
    ParentInv m frm (pl ++ [(y, cur)]) := by
  obtain ⟨hnd, hall⟩ := hinv
  constructor
  · rw [keysA_append]
    refine List.Nodup.append hnd (by simp [keysA]) ?_
    intro a ha hak
    simp only [keysA, List.map_cons, List.map_nil, List.mem_singleton] at hak
    subst hak
    exact hy_fresh ha
  · intro x v hxv
    rcases List.mem_append.mp hxv with hold | hnew
    · obtain ⟨he, hxf, hxe, hv⟩ := hall x v hold
      refine ⟨he, hxf, hxe, ?_⟩
      rcases hv with hv | ⟨hvk, hvi⟩
      · exact Or.inl hv
      · refine Or.inr ⟨by rw [keysA_append]; exact List.mem_append.mpr (Or.inl hvk), ?_⟩
        rw [keysA_append, List.indexOf_append_of_mem hvk,
          List.indexOf_append_of_mem (by
            simp only [keysA, List.mem_map]
            exact ⟨(x, v), hold, rfl⟩)]
        exact hvi
    · rw [List.mem_singleton] at hnew
      injection hnew with hx hv
      rw [hx, hv]
      refine ⟨hy_adj, hy_frm, hy_ne, ?_⟩
      rcases hcur with hc | hc
      · exact Or.inl hc
      · refine Or.inr ⟨by rw [keysA_append]; exact List.mem_append.mpr (Or.inl hc), ?_⟩
        rw [keysA_append, List.indexOf_append_of_mem hc,
          List.indexOf_append_of_not_mem hy_fresh]
        have h1 : (keysA pl).indexOf cur < (keysA pl).length :=
          List.indexOf_lt_length.mpr hc
        have h2 : keysA [(y, cur)] = [y] := by simp [keysA]
        rw [h2]
        have h3 : List.indexOf y [y] = 0 := by simp
        omega

theorem mem_keysA {α : Type} (pl : List (String × α)) (x : String) :
    x ∈ keysA pl ↔ ∃ v, (x, v) ∈ pl := by
  constructor
  · intro hx
    simp only [keysA, List.mem_map] at hx
    obtain ⟨⟨a, b⟩, hab, ha⟩ := hx
    simp only at ha
    refine ⟨b, ?_⟩
    rw [← ha]
    exact hab
  · rintro ⟨v, hv⟩
    simp only [keysA, List.mem_map]
    exact ⟨(x, v), hv, rfl⟩

/-- Reconstruction correctness: over a grounded parent map, the Go
reconstruction loop produces a genuine dependency chain from the start
node `frm` to `x`. -/
theorem reconstruct_spec (m : List (String × List Dependency)) (frm : String)
    (pl : List (String × String)) (hfrm_ne : frm ≠ "")
    (hinv : ParentInv m frm pl) :
    ∀ (n : Nat) (x : String), x ∈ keysA pl → (keysA pl).indexOf x < n →
    ∃ c : List String, c.head? = some frm ∧ c.getLast? = some x ∧
      List.Chain' (fun a b => b ∈ adjIDs m a) c ∧
      ∀ (fuel : Nat), (keysA pl).indexOf x + 2 ≤ fuel →
      ∀ acc, reconstruct pl fuel (getS pl x) (x :: acc) = c ++ acc := by
  intro n
  induction n with
  | zero => intro x _ h; omega
  | succ n ih =>
      intro x hx hlt
      obtain ⟨v, hxv⟩ := (mem_keysA pl x).mp hx
      have hget : getS pl x = v := by
        rw [getS, (mem_iff_lookupA pl x v hinv.1).mp hxv]
        rfl
      obtain ⟨hadj, hxfrm, hxne, hvcase⟩ := hinv.2 x v hxv
      rcases hvcase with hvf | ⟨hvk, hvi⟩
      · refine ⟨[frm, x], by simp, by simp, ?_, ?_⟩
        · simp only [List.chain'_cons, List.chain'_singleton, and_true]
          rw [← hvf]
          exact hadj
        · intro fuel hfuel acc
          obtain ⟨f1, rfl⟩ : ∃ f1, fuel = f1 + 1 := ⟨fuel - 1, by omega⟩
          rw [reconstruct, hget, if_neg (by rw [hvf]; exact hfrm_ne)]
          obtain ⟨f2, rfl⟩ : ∃ f2, f1 = f2 + 1 := ⟨f1 - 1, by omega⟩
          have hgf : getS pl v = "" := by
            rw [getS, (lookupA_eq_none_iff pl v).mpr (by
              rw [hvf]
              exact frm_not_in_keys m frm pl hinv)]
            rfl
          rw [reconstruct, hgf, if_pos rfl, hvf]
          rfl
      · have hvn : (keysA pl).indexOf v < n := by omega
        obtain ⟨c, hh, hlast, hc, heq⟩ := ih v hvk hvn
        have hvne : v ≠ "" := by
          obtain ⟨w, hvw⟩ := (mem_keysA pl v).mp hvk
          exact (hinv.2 v w hvw).2.2.1
        refine ⟨c ++ [x], ?_, List.getLast?_concat c, ?_, ?_⟩
        · rw [List.head?_append, hh]
          rfl
        · rw [List.chain'_append]
          refine ⟨hc, List.chain'_singleton x, ?_⟩
          intro a ha b hb
          rw [hlast] at ha
          rw [List.head?_cons] at hb
          simp only [Option.mem_def, Option.some_inj] at ha hb
          rw [← ha, ← hb]
          exact hadj
        · intro fuel hfuel acc
          obtain ⟨f1, rfl⟩ : ∃ f1, fuel = f1 + 1 := ⟨fuel - 1, by omega⟩
          rw [reconstruct, hget, if_neg hvne]
          rw [heq f1 (by omega) (x :: acc)]
          rw [List.append_assoc]
          rfl

/-- A dependency chain witnesses reachability between its endpoints. -/
theorem chain_head_last_reach (m : List (String × List Dependency)) :
    ∀ (c : List String) (a b : String), c.head? = some a → c.getLast? = some b →
    List.Chain' (fun x y => y ∈ adjIDs m x) c → ReachA m a b := by
  intro c
  induction c with
  | nil => intro a b h _ _; simp at h
  | cons x rest ih =>
      intro a b hh hlast hch
      rw [List.head?_cons, Option.some_inj] at hh
      cases rest with
      | nil =>
          rw [List.getLast?_singleton, Option.some_inj] at hlast
          rw [← hh, ← hlast]
          exact ReachA.refl x
      | cons y rest2 =>
          rw [List.chain'_cons] at hch
          have hyb : ReachA m y b := by
            refine ih y b rfl ?_ hch.2
            rw [← hlast]
            rfl
          have hxy : ReachA m x y := ReachA.step (ReachA.refl x) hch.1
          rw [← hh]
          exact ReachA.trans_mem hxy hyb

theorem card_cons_visited (univ : Finset String) (visited : List String) (y : String)
    (hy : y ∈ univ) (hyv : y ∉ visited) :
    (univ \ (y :: visited).toFinset).card + 1 = (univ \ visited.toFinset).card := by
  have hmem : y ∈ univ \ visited.toFinset := by
    rw [Finset.mem_sdiff]
    exact ⟨hy, by simpa using hyv⟩
  have hsd : univ \ (y :: visited).toFinset = (univ \ visited.toFinset).erase y := by
    ext a
    simp only [List.toFinset_cons, Finset.mem_sdiff, Finset.mem_insert,
      Finset.mem_erase, List.mem_toFinset]
    constructor
    · rintro ⟨ha, hna⟩
      push_neg at hna
      exact ⟨hna.1, ha, by simpa using hna.2⟩
    · rintro ⟨hne, ha, hnv⟩
      exact ⟨ha, by simp [hne, hnv]⟩
  rw [hsd, Finset.card_erase_of_mem hmem]
  have hpos : 0 < (univ \ visited.toFinset).card := Finset.card_pos.mpr ⟨y, hmem⟩
  omega

theorem adjIDs_sub_allDepIDs (m : List (String × List Dependency)) (cur x : String)
    (hx : x ∈ adjIDs m cur) : x ∈ allDepIDs m := by
  simp only [adjIDs, List.mem_map] at hx
  obtain ⟨d, hd, hdx⟩ := hx
  rw [← hdx]
  exact adj_sub_allDepIDs m cur d hd

/-- Specification of the inner `FindPath` loop: either it returns a genuine
dependency chain from `frm` to `dst`, or it extends the search state
preserving all invariants. -/
theorem findPathStep_spec (m : List (String × List Dependency)) (frm dst : String)
    (hfrm_ne : frm ≠ "") (cur : String) :
    ∀ (deps : List Dependency) (visited : List String)
      (parent : List (String × String)) (queue : List String),
    (∀ d ∈ deps, d.ID ∈ adjIDs m cur) →
    (∀ d ∈ deps, d.ID ≠ "") →
    (∀ x, x ∈ visited ↔ x = frm ∨ x ∈ keysA parent) →
    dst ∉ visited →
    ParentInv m frm parent →
    (cur = frm ∨ cur ∈ keysA parent) →
    (match findPathStep dst cur deps visited parent queue with
     | Sum.inl path => path.head? = some frm ∧ path.getLast? = some dst ∧
         List.Chain' (fun a b => b ∈ adjIDs m a) path
     | Sum.inr st =>
         (∀ x, x ∈ st.1 ↔ x = frm ∨ x ∈ keysA st.2.1) ∧
         dst ∉ st.1 ∧
         ParentInv m frm st.2.1 ∧
         (∀ x, x ∈ st.1 ↔ x ∈ visited ∨ x ∈ deps.map Dependency.ID) ∧
         (∀ x, x ∈ st.2.2 ↔ x ∈ queue ∨ (x ∈ deps.map Dependency.ID ∧ x ∉ visited)) ∧
         ((allDepIDs m).toFinset \ st.1.toFinset).card + st.2.2.length
           ≤ ((allDepIDs m).toFinset \ visited.toFinset).card + queue.length) := by
  intro deps
  induction deps with
  | nil =>
      intro visited parent queue _ _ hJ2 hJ4 hJ5 _
      rw [findPathStep]
      exact ⟨hJ2, hJ4, hJ5, by simp, by simp, by simp⟩
  | cons dep deps ih =>
      intro visited parent queue hadj hne hJ2 hJ4 hJ5 hcur
      have hfrm_vis : frm ∈ visited := (hJ2 frm).mpr (Or.inl rfl)
      by_cases hv : dep.ID ∈ visited
      · rw [findPathStep, if_pos hv]
        have h := ih visited parent queue
          (fun d hd => hadj d (List.mem_cons_of_mem _ hd))
          (fun d hd => hne d (List.mem_cons_of_mem _ hd)) hJ2 hJ4 hJ5 hcur
        cases hstep : findPathStep dst cur deps visited parent queue with
        | inl path =>
            rw [hstep] at h
            exact h
        | inr st =>
            rw [hstep] at h
            obtain ⟨h1, h2, h3, h4, h5, h6⟩ := h
            refine ⟨h1, h2, h3, ?_, ?_, h6⟩
            · intro x
              rw [h4 x]
              simp only [List.map_cons, List.mem_cons]
              by_cases hx : x = dep.ID
              · subst hx
                simp [hv]
              · tauto
            · intro x
              rw [h5 x]
              simp only [List.map_cons, List.mem_cons]
              by_cases hx : x = dep.ID
              · subst hx
                simp [hv]
              · tauto
      · have hdep_adj : dep.ID ∈ adjIDs m cur := hadj dep (List.mem_cons_self _ _)
        have hdep_ne : dep.ID ≠ "" := hne dep (List.mem_cons_self _ _)
        have hdep_nk : dep.ID ∉ keysA parent := fun hc => hv ((hJ2 _).mpr (Or.inr hc))
        have hdep_nfrm : dep.ID ≠ frm := fun hc => hv (hc ▸ hfrm_vis)
        have hinv' : ParentInv m frm (parent ++ [(dep.ID, cur)]) :=
          ParentInv.append m frm parent dep.ID cur hJ5 hdep_nk hdep_nfrm hdep_ne
            hdep_adj hcur
        by_cases hd : dep.ID = dst
        · rw [findPathStep, if_neg hv, if_pos hd]
          subst hd
          have hkmem : dep.ID ∈ keysA (parent ++ [(dep.ID, cur)]) := by
            rw [keysA_append]
            simp [keysA]
          have hidx : (keysA (parent ++ [(dep.ID, cur)])).indexOf dep.ID
              = (keysA parent).length := by
            rw [keysA_append, List.indexOf_append_of_not_mem hdep_nk]
            have : keysA [(dep.ID, cur)] = [dep.ID] := by simp [keysA]
            rw [this]
            simp
          obtain ⟨c, hh, hlast, hc, heq⟩ :=
            reconstruct_spec m frm (parent ++ [(dep.ID, cur)]) hfrm_ne hinv'
              ((keysA (parent ++ [(dep.ID, cur)])).indexOf dep.ID + 1) dep.ID hkmem
              (by omega)
          have hlen : (keysA parent).length = parent.length := by
            simp [keysA]
          have heval := heq ((parent ++ [(dep.ID, cur)]).length + 1)
            (by
              rw [hidx, hlen]
              simp)
            []
          simp only at heval ⊢
          rw [heval]
          simpa using ⟨hh, hlast, hc⟩
        · rw [findPathStep, if_neg hv, if_neg hd]
          have hJ2' : ∀ x, x ∈ dep.ID :: visited
              ↔ x = frm ∨ x ∈ keysA (parent ++ [(dep.ID, cur)]) := by
            intro x
            rw [List.mem_cons, hJ2 x, keysA_append]
            have : keysA [(dep.ID, cur)] = [dep.ID] := by simp [keysA]
            rw [this]
            simp only [List.mem_append, List.mem_singleton]
            tauto
          have hJ4' : dst ∉ dep.ID :: visited := by
            intro hc
            rcases List.mem_cons.mp hc with hc1 | hc2
            · exact hd hc1.symm
            · exact hJ4 hc2
          have h := ih (dep.ID :: visited) (parent ++ [(dep.ID, cur)])
            (queue ++ [dep.ID])
            (fun d hdm => hadj d (List.mem_cons_of_mem _ hdm))
            (fun d hdm => hne d (List.mem_cons_of_mem _ hdm)) hJ2' hJ4' hinv'
            (by
              rcases hcur with hc | hc
              · exact Or.inl hc
              · refine Or.inr ?_
                rw [keysA_append]
                exact List.mem_append.mpr (Or.inl hc))
          cases hstep : findPathStep dst cur deps (dep.ID :: visited)
              (parent ++ [(dep.ID, cur)]) (queue ++ [dep.ID]) with
          | inl path =>
              rw [hstep] at h
              exact h
          | inr st =>
              rw [hstep] at h
              obtain ⟨h1, h2, h3, h4, h5, h6⟩ := h
              refine ⟨h1, h2, h3, ?_, ?_, ?_⟩
              · intro x
                rw [h4 x]
                simp only [List.map_cons, List.mem_cons]
                tauto
              · intro x
                rw [h5 x]
                simp only [List.map_cons, List.mem_cons, List.mem_append,
                  List.mem_singleton]
                by_cases hx : x = dep.ID
                · subst hx
                  simp [hv]
                · tauto
              · have hstepcard : ((allDepIDs m).toFinset
                      \ (dep.ID :: visited).toFinset).card + 1
                    = ((allDepIDs m).toFinset \ visited.toFinset).card :=
                  card_cons_visited _ visited dep.ID
                    (by
                      rw [List.mem_toFinset]
                      exact adjIDs_sub_allDepIDs m cur dep.ID hdep_adj) hv
                have hql : (queue ++ [dep.ID]).length = queue.length + 1 := by simp
                rw [hql] at h6
                omega

/-- Specification of the outer `FindPath` BFS loop: with sufficient fuel,
the returned path is a genuine dependency chain from `frm` to `dst`, and
`none` is returned only when `dst` is unreachable from `frm`. -/
theorem findPathAux_spec (m : List (String × List Dependency)) (frm dst : String)
    (hfrm_ne : frm ≠ "") (hm : NonEmptyIDs m) (fuel : Nat) :
    ∀ (queue visited : List String) (parent : List (String × String)),
    bfsMeasure m queue visited ≤ fuel →
    (∀ x, x ∈ visited ↔ x = frm ∨ x ∈ keysA parent) →
    (∀ x ∈ queue, x ∈ visited) →
    dst ∉ visited →
    (∀ x ∈ visited, x ∉ queue → ∀ y ∈ adjIDs m x, y ∈ visited) →
    ParentInv m frm parent →
    (match findPathAux m dst fuel queue visited parent with
     | some path => path.head? = some frm ∧ path.getLast? = some dst ∧
         List.Chain' (fun a b => b ∈ adjIDs m a) path
     | none => ¬ReachA m frm dst) := by
  induction fuel with
  | zero =>
      intro queue visited parent hfuel hJ2 hJ3 hJ4 hK _
      have hq : queue = [] := by
        have : queue.length = 0 := by
          simp only [bfsMeasure] at hfuel
          omega
        exact List.length_eq_zero.mp this
      subst hq
      show ¬ReachA m frm dst
      intro hr
      have haux : ∀ y, ReachA m frm y → y ∈ visited := by
        intro y hy
        induction hy with
        | refl => exact (hJ2 frm).mpr (Or.inl rfl)
        | step _ hmem ihy => exact hK _ ihy (by simp) _ hmem
      exact hJ4 (haux dst hr)
  | succ fuel ih =>
      intro queue visited parent hfuel hJ2 hJ3 hJ4 hK hJ5
      cases queue with
      | nil =>
          show ¬ReachA m frm dst
          intro hr
          have haux : ∀ y, ReachA m frm y → y ∈ visited := by
            intro y hy
            induction hy with
            | refl => exact (hJ2 frm).mpr (Or.inl rfl)
            | step _ hmem ihy => exact hK _ ihy (by simp) _ hmem
          exact hJ4 (haux dst hr)
      | cons cur rest =>
          have hcurv : cur ∈ visited := hJ3 cur (List.mem_cons_self _ _)
          have hstep := findPathStep_spec m frm dst hfrm_ne cur (getA m cur)
            visited parent rest
            (fun d hd => List.mem_map_of_mem Dependency.ID hd)
            (fun d hd => nonEmpty_of_getA m hm cur d hd)
            hJ2 hJ4 hJ5 ((hJ2 cur).mp hcurv)
          rw [findPathAux]
          cases hres : findPathStep dst cur (getA m cur) visited parent rest with
          | inl path =>
              rw [hres] at hstep
              exact hstep
          | inr st =>
              rw [hres] at hstep
              obtain ⟨h1, h2, h3, h4, h5, h6⟩ := hstep
              have hJ3' : ∀ x ∈ st.2.2, x ∈ st.1 := by
                intro x hx
                rcases (h5 x).mp hx with hq | ⟨hd, _⟩
                · exact (h4 x).mpr (Or.inl (hJ3 x (List.mem_cons_of_mem _ hq)))
                · exact (h4 x).mpr (Or.inr hd)
              have hK' : ∀ x ∈ st.1, x ∉ st.2.2 → ∀ y ∈ adjIDs m x, y ∈ st.1 := by
                intro x hx hnq y hy
                by_cases hxc : x = cur
                · subst hxc
                  exact (h4 y).mpr (Or.inr (by simpa [adjIDs] using hy))
                · by_cases hvv : x ∈ visited
                  · have hnold : x ∉ cur :: rest := by
                      intro hc
                      rcases List.mem_cons.mp hc with h1c | h2c
                      · exact hxc h1c
                      · exact hnq ((h5 x).mpr (Or.inl h2c))
                    exact (h4 y).mpr (Or.inl (hK x hvv hnold y hy))
                  · rcases (h4 x).mp hx with hv2 | hmap
                    · exact absurd hv2 hvv
                    · exact absurd ((h5 x).mpr (Or.inr ⟨hmap, hvv⟩)) hnq
              have hfuel' : bfsMeasure m st.2.2 st.1 ≤ fuel := by
                simp only [bfsMeasure, List.length_cons] at hfuel ⊢
                omega
              have hrec := ih st.2.2 st.1 st.2.1 hfuel' h1 hJ3' h2 hK' h3
              exact hrec

/-- C3 counterexample: over the graph where the fiber with empty id ""
depends on "y", `FindPath "" "y"` returns `["y"]`, which does not start
with the `from` node, even though "y" is reachable from "" — the claim
fails for the empty id. -/
theorem claim_C3_counterexample :
    (BuildGraph [Felt.mk "" "" "" [Dependency.mk "y" ""] 0, Felt.mk "y" "" "" [] 0]).FindPath
        "" "y" = some ["y"] ∧
    ("" : String) ≠ "y" ∧
    ReachA (BuildGraph [Felt.mk "" "" "" [Dependency.mk "y" ""] 0,
        Felt.mk "y" "" "" [] 0]).Upstream "" "y" ∧
    (["y"] : List String).head? ≠ some "" := by
  refine ⟨by decide, by decide, ?_, by decide⟩
  refine ReachA.step (ReachA.refl "") ?_
  decide

/-- C3 (amended): `FindPath frm frm = [frm]` for every id, even one absent
from the graph; and provided `frm` is non-empty and every dependency id in
the graph is non-empty, for `frm ≠ dst` the call returns a sequence
starting at `frm`, ending at `dst`, whose consecutive elements follow
upstream edges, iff `dst` is reachable from `frm` over upstream edges, and
returns the no-path signal (`none`, Go `nil`) otherwise. -/
theorem claim_C3_findPath (g : Graph) (frm dst : String)
    (hfrm_ne : frm ≠ "") (hm : NonEmptyIDs g.Upstream) (hne : frm ≠ dst) :
    (∀ x, g.FindPath x x = some [x])
    ∧ ((g.FindPath frm dst).isSome ↔ ReachA g.Upstream frm dst)
    ∧ (∀ p, g.FindPath frm dst = some p →
        p.head? = some frm ∧ p.getLast? = some dst ∧
        List.Chain' (fun a b => b ∈ adjIDs g.Upstream a) p)
    ∧ (BuildGraph feltsChain).FindPath "d" "a" = some ["d", "c", "b", "a"]
    ∧ (BuildGraph feltsChain).FindPath "a" "d" = none := by
  have hspec := findPathAux_spec g.Upstream frm dst hfrm_ne hm
    ((allDepIDs g.Upstream).length + 2) [frm] [frm] []
    (by
      simp only [bfsMeasure, List.length_singleton]
      have h1 : ((allDepIDs g.Upstream).toFinset \ [frm].toFinset).card
          ≤ (allDepIDs g.Upstream).toFinset.card :=
        Finset.card_le_card (Finset.sdiff_subset)
      have h2 : (allDepIDs g.Upstream).toFinset.card ≤ (allDepIDs g.Upstream).length :=
        List.toFinset_card_le _
      omega)
    (by
      intro x
      simp [keysA])
    (fun x hx => hx)
    (by
      intro hc
      rw [List.mem_singleton] at hc
      exact hne hc.symm)
    (by
      intro x hx hnq
      rw [List.mem_singleton] at hx
      exact absurd (hx ▸ List.mem_singleton.mpr rfl) hnq)
    (by
      constructor
      · simp [keysA]
      · intro x v hxv
        simp at hxv)
  have hunfold : g.FindPath frm dst
      = findPathAux g.Upstream dst ((allDepIDs g.Upstream).length + 2) [frm] [frm] [] := by
    rw [Graph.FindPath, if_neg hne]
  refine ⟨?_, ?_, ?_, by decide, by decide⟩
  · intro x
    rw [Graph.FindPath, if_pos rfl]
  · rw [hunfold]
    cases hres : findPathAux g.Upstream dst ((allDepIDs g.Upstream).length + 2)
        [frm] [frm] [] with
    | none =>
        rw [hres] at hspec
        simpa using hspec
    | some path =>
        rw [hres] at hspec
        simp only [Option.isSome_some, true_iff]
        exact chain_head_last_reach g.Upstream path frm dst hspec.1 hspec.2.1 hspec.2.2
  · intro p hp
    rw [hunfold] at hp
    rw [hp] at hspec
    exact hspec

/-- Witness for the amended C3 theorem: on the chain graph,
`FindPath d a = [d, c, b, a]` and `FindPath a d` is the no-path signal. -/
theorem claim_C3_findPath_witness :
    (∀ x, (BuildGraph feltsChain).FindPath x x = some [x])
    ∧ (((BuildGraph feltsChain).FindPath "d" "a").isSome
        ↔ ReachA (BuildGraph feltsChain).Upstream "d" "a")
    ∧ (∀ p, (BuildGraph feltsChain).FindPath "d" "a" = some p →
        p.head? = some "d" ∧ p.getLast? = some "a" ∧
        List.Chain' (fun a b => b ∈ adjIDs (BuildGraph feltsChain).Upstream a) p)
    ∧ (BuildGraph feltsChain).FindPath "d" "a" = some ["d", "c", "b", "a"]
    ∧ (BuildGraph feltsChain).FindPath "a" "d" = none :=
  claim_C3_findPath (BuildGraph feltsChain) "d" "a" (by decide) (by decide) (by decide)

/-! Exhaustive cycle detection (Go `(*Graph).FindCycles`). -/

/-- Three-state visited marker with Go zero-value semantics
(0 = unvisited, 1 = in-stack, 2 = done). -/
def getV (m : List (String × Nat)) (k : String) : Nat := (lookupA m k).getD 0

/-- Marker write (`visited[id] = v`). -/
def setV (m : List (String × Nat)) (k : String) (v : Nat) : List (String × Nat) :=
  insertA m k v

theorem getV_setV_self (m : List (String × Nat)) (k : String) (v : Nat) :
    getV (setV m k v) k = v := by
  simp [getV, setV, lookupA_insertA_self]

theorem getV_setV_ne (m : List (String × Nat)) (k k' : String) (v : Nat)
    (h : k ≠ k') : getV (setV m k v) k' = getV m k' := by
  simp [getV, setV, lookupA_insertA_ne m k k' v h]

/-- Cycle description format of Go `FindCycles`
(`fmt.Sprintf("cycle: %s", strings.Join(cyclePath, " -> "))`). -/
def cycleDesc (cyclePath : List String) : String :=
  "cycle: " ++ String.intercalate " -> " cyclePath

/-- One pass over a dependency list, skipping ids absent from `Nodes` and
recursing into present ones via `rec` (the DFS at the next fuel level). -/
def dfsDeps (g : Graph)
    (rec : String → List (String × Nat) × List String →
      List (String × Nat) × List String) :
    List Dependency → List (String × Nat) × List String →
    List (String × Nat) × List String
  | [], st => st
  | dep :: deps, st =>
      if (lookupA g.Nodes dep.ID).isSome then dfsDeps g rec deps (rec dep.ID st)
      else dfsDeps g rec deps st

/-- Fuel-bounded Go `dfs` of `FindCycles`: three-state DFS over upstream
edges, recording a cycle description whenever an in-stack node is met. -/
def dfsCyc (g : Graph) : Nat → String → List String →
    List (String × Nat) × List String → List (String × Nat) × List String
  | 0, _, _, st => st
  | fuel + 1, id, path, st =>
      if getV st.1 id = 1 then
        match path.findIdx? (fun p => p == id) with
        | some i => (st.1, st.2 ++ [cycleDesc (path.drop i ++ [id])])
        | none => st
      else if getV st.1 id = 2 then st
      else
        let st2 := dfsDeps g (fun d s => dfsCyc g fuel d (path ++ [id]) s)
          (getA g.Upstream id) (setV st.1 id 1, st.2)
        (setV st2.1 id 2, st2.2)

/-- Go `(*Graph).FindCycles`: scan all nodes, running the DFS from each
unvisited one, and collect the cycle descriptions. -/
def Graph.FindCycles (g : Graph) : List String :=
  ((keysA g.Nodes).foldl
    (fun st id =>
      if getV st.1 id = 0 then dfsCyc g ((keysA g.Nodes).length + 1) id [] st else st)
    ([], [])).2

/-- A restricted upstream edge: an upstream reference between two ids both
present in `Nodes` (the DFS traverses exactly these). -/
def edgeR (g : Graph) (x y : String) : Prop :=
  (lookupA g.Nodes x).isSome ∧ (lookupA g.Nodes y).isSome ∧ y ∈ adjIDs g.Upstream x

instance edgeR.decidable (g : Graph) (x y : String) : Decidable (edgeR g x y) := by
  unfold edgeR
  infer_instance

/-- Reachability over restricted edges. -/
inductive ReachR (g : Graph) : String → String → Prop
  | refl (x : String) : ReachR g x x
  | step {x y z : String} : ReachR g x y → edgeR g y z → ReachR g x z

/-- A directed cycle through `x` in the restricted graph. -/
def CycleAt (g : Graph) (x : String) : Prop := ∃ y, edgeR g x y ∧ ReachR g y x

/-- The restricted graph contains a directed cycle. -/
def HasCycle (g : Graph) : Prop := ∃ x, CycleAt g x

theorem ReachR.trans {g : Graph} {x y z : String}
    (hxy : ReachR g x y) (hyz : ReachR g y z) : ReachR g x z := by
  induction hyz with
  | refl => exact hxy
  | step _ hedge ih => exact ReachR.step ih hedge

theorem chainR_reach (g : Graph) :
    ∀ (c : List String) (a b : String), c.head? = some a → c.getLast? = some b →
    List.Chain' (edgeR g) c → ReachR g a b := by
  intro c
  induction c with
  | nil => intro a b h _ _; simp at h
  | cons x rest ih =>
      intro a b hh hlast hch
      rw [List.head?_cons, Option.some_inj] at hh
      cases rest with
      | nil =>
          rw [List.getLast?_singleton, Option.some_inj] at hlast
          rw [← hh, ← hlast]
          exact ReachR.refl x
      | cons y rest2 =>
          rw [List.chain'_cons] at hch
          have hyb : ReachR g y b := by
            refine ih y b rfl ?_ hch.2
            rw [← hlast]
            rfl
          have hxy : ReachR g x y := ReachR.step (ReachR.refl x) hch.1
          rw [← hh]
          exact ReachR.trans hxy hyb

/-- A non-trivial restricted reachability starts with a first edge. -/
theorem reachR_first_step {g : Graph} {a b : String} (h : ReachR g a b) :
    a ≠ b → ∃ z, edgeR g a z ∧ ReachR g z b := by
  induction h with
  | refl => intro hne; exact absurd rfl hne
  | step hr hedge ih =>
      rename_i y z
      intro hne
      by_cases hay : a = y
      · subst hay
        exact ⟨z, hedge, ReachR.refl z⟩
      · obtain ⟨w, hw1, hw2⟩ := ih hay
        exact ⟨w, hw1, ReachR.step hw2 hedge⟩

/-- A closed chain of length at least 2 witnesses a cycle. -/
theorem cycle_of_chain (g : Graph) (c : List String) (x : String)
    (hlen : 2 ≤ c.length) (hh : c.head? = some x) (hl : c.getLast? = some x)
    (hc : List.Chain' (edgeR g) c) : CycleAt g x := by
  cases c with
  | nil => simp at hh
  | cons a rest =>
      rw [List.head?_cons, Option.some_inj] at hh
      subst hh
      cases rest with
      | nil => simp at hlen
      | cons y rest2 =>
          rw [List.chain'_cons] at hc
          have hlast2 : (y :: rest2).getLast? = some a := by
            rw [← hl]
            rfl
          exact ⟨y, hc.1, chainR_reach g (y :: rest2) y a rfl hlast2 hc.2⟩

theorem findIdx?_go_mem (id : String) :
    ∀ (path : List String) (k : Nat), id ∈ path →
    ∃ i, List.findIdx? (fun p => p == id) path k = some (k + i) ∧
      (path.drop i).head? = some id := by
  intro path
  induction path with
  | nil => intro k h; simp at h
  | cons p rest ih =>
      intro k h
      by_cases hp : p = id
      · refine ⟨0, ?_, ?_⟩
        · rw [List.findIdx?_cons, if_pos (by simpa using hp)]
          simp
        · simpa using hp
      · have hrest : id ∈ rest := by
          rcases List.mem_cons.mp h with hc | hc
          · exact absurd hc.symm hp
          · exact hc
        obtain ⟨i, hfind, hhead⟩ := ih (k + 1) hrest
        refine ⟨i + 1, ?_, ?_⟩
        · rw [List.findIdx?_cons, if_neg (by simpa using hp), hfind]
          congr 1
          omega
        · simpa using hhead

theorem isSome_iff_mem_keys {α : Type} (m : List (String × α)) (k : String) :
    (lookupA m k).isSome ↔ k ∈ keysA m := by
  rw [← not_iff_not]
  simp only [Option.not_isSome_iff_eq_none]
  exact lookupA_eq_none_iff m k

/-- Number of unvisited nodes: the DFS termination measure. -/
def wcount (g : Graph) (v : List (String × Nat)) : Nat :=
  ((keysA g.Nodes).toFinset.filter (fun z => getV v z = 0)).card

theorem wcount_le (g : Graph) (v : List (String × Nat)) :
    wcount g v ≤ (keysA g.Nodes).length :=
  le_trans (Finset.card_le_card (Finset.filter_subset _ _))
    (le_trans (le_refl _) (List.toFinset_card_le _))

theorem wcount_mono (g : Graph) (v v' : List (String × Nat))
    (h : ∀ z, getV v' z = 0 → getV v z = 0) : wcount g v' ≤ wcount g v := by
  apply Finset.card_le_card
  intro z hz
  simp only [Finset.mem_filter] at hz ⊢
  exact ⟨hz.1, h z hz.2⟩

theorem wcount_setV_gray (g : Graph) (v : List (String × Nat)) (id : String)
    (hid : (lookupA g.Nodes id).isSome) (h0 : getV v id = 0) :
    wcount g (setV v id 1) + 1 = wcount g v := by
  have hidk : id ∈ (keysA g.Nodes).toFinset := by
    rw [List.mem_toFinset]
    exact (isSome_iff_mem_keys _ _).mp hid
  have hmem : id ∈ (keysA g.Nodes).toFinset.filter (fun z => getV v z = 0) := by
    rw [Finset.mem_filter]
    exact ⟨hidk, h0⟩
  have hset : (keysA g.Nodes).toFinset.filter (fun z => getV (setV v id 1) z = 0)
      = ((keysA g.Nodes).toFinset.filter (fun z => getV v z = 0)).erase id := by
    ext a
    simp only [Finset.mem_filter, Finset.mem_erase]
    constructor
    · rintro ⟨ha, hv⟩
      by_cases hai : a = id
      · subst hai
        rw [getV_setV_self] at hv
        simp at hv
      · rw [getV_setV_ne _ _ _ _ (fun hc => hai hc.symm)] at hv
        exact ⟨hai, ha, hv⟩
    · rintro ⟨hai, ha, hv⟩
      rw [getV_setV_ne _ _ _ _ (fun hc => hai hc.symm)]
      exact ⟨ha, hv⟩
  rw [wcount, wcount, hset, Finset.card_erase_of_mem hmem]
  have hpos : 0 < ((keysA g.Nodes).toFinset.filter (fun z => getV v z = 0)).card :=
    Finset.card_pos.mpr ⟨id, hmem⟩
  omega

/-- All markers lie in the range 0..2 (the DFS only ever writes 1 and 2). -/
def VLe2 (v : List (String × Nat)) : Prop := ∀ z, getV v z ≤ 2

theorem VLe2.setV (v : List (String × Nat)) (id : String) (val : Nat)
    (hval : val ≤ 2) (h : VLe2 v) : VLe2 (setV v id val) := by
  intro z
  by_cases hz : id = z
  · subst hz
    rw [getV_setV_self]
    exact hval
  · rw [getV_setV_ne _ _ _ _ hz]
    exact h z

/-- Grays are exactly the given stack. -/
def grayIs (v : List (String × Nat)) (s : List String) : Prop :=
  ∀ z, getV v z = 1 ↔ z ∈ s

/-- No finished node lies on a cycle. -/
def BlackSafe (g : Graph) (v : List (String × Nat)) : Prop :=
  ∀ z, getV v z = 2 → ¬CycleAt g z

/-- Specification of the dependency fold of the DFS, parameterized by the
specification of the recursive call. -/
theorem dfsDeps_spec (g : Graph) (fuel : Nat) (path' : List String)
    (rec : String → List (String × Nat) × List String →
      List (String × Nat) × List String)
    (hrec : ∀ (d : String) (st : List (String × Nat) × List String),
      (lookupA g.Nodes d).isSome →
      (∀ l, path'.getLast? = some l → edgeR g l d) →
      grayIs st.1 path' →
      wcount g st.1 + 1 ≤ fuel →
      VLe2 st.1 →
      ∃ added, (rec d st).2 = st.2 ++ added ∧ (added ≠ [] → HasCycle g) ∧
        grayIs (rec d st).1 path' ∧
        (∀ z, getV st.1 z = 2 → getV (rec d st).1 z = 2) ∧
        (∀ z, getV (rec d st).1 z = 0 → getV st.1 z = 0) ∧
        (added = [] → getV (rec d st).1 d = 2) ∧
        VLe2 (rec d st).1 ∧
        (BlackSafe g st.1 → added = [] → BlackSafe g (rec d st).1)) :
    ∀ (deps : List Dependency) (st : List (String × Nat) × List String),
    (∀ d ∈ deps, (lookupA g.Nodes d.ID).isSome →
        ∀ l, path'.getLast? = some l → edgeR g l d.ID) →
    grayIs st.1 path' →
    wcount g st.1 + 1 ≤ fuel →
    VLe2 st.1 →
    ∃ added, (dfsDeps g rec deps st).2 = st.2 ++ added ∧
      (added ≠ [] → HasCycle g) ∧
      grayIs (dfsDeps g rec deps st).1 path' ∧
      (∀ z, getV st.1 z = 2 → getV (dfsDeps g rec deps st).1 z = 2) ∧
      (∀ z, getV (dfsDeps g rec deps st).1 z = 0 → getV st.1 z = 0) ∧
      (added = [] → ∀ d ∈ deps, (lookupA g.Nodes d.ID).isSome →
        getV (dfsDeps g rec deps st).1 d.ID = 2) ∧
      VLe2 (dfsDeps g rec deps st).1 ∧
      (BlackSafe g st.1 → added = [] → BlackSafe g (dfsDeps g rec deps st).1) := by
  intro deps
  induction deps with
  | nil =>
      intro st _ hgray _ hv2
      refine ⟨[], by simp [dfsDeps], by simp, by simpa [dfsDeps] using hgray,
        by simp [dfsDeps], by simp [dfsDeps], by simp, by simpa [dfsDeps] using hv2,
        ?_⟩
      intro hbs _
      simpa [dfsDeps] using hbs
  | cons dep deps ih =>
      intro st hdeps hgray hfw hv2
      by_cases hsome : (lookupA g.Nodes dep.ID).isSome
      · rw [dfsDeps, if_pos hsome]
        obtain ⟨a1, hc1, hH1, hg1, hb1, hw1, hf1, hv1, hbs1⟩ :=
          hrec dep.ID st hsome (hdeps dep (List.mem_cons_self _ _) hsome) hgray hfw hv2
        obtain ⟨a2, hc2, hH2, hg2, hb2, hw2, hf2, hv2b, hbs2⟩ :=
          ih (rec dep.ID st)
            (fun d hd => hdeps d (List.mem_cons_of_mem _ hd)) hg1
            (by
              have hm := wcount_mono g st.1 (rec dep.ID st).1 hw1
              omega)
            hv1
        refine ⟨a1 ++ a2, ?_, ?_, hg2, ?_, ?_, ?_, hv2b, ?_⟩
        · rw [hc2, hc1, List.append_assoc]
        · intro hne
          by_cases ha1 : a1 = []
          · apply hH2
            intro ha2
            exact hne (by rw [ha1, ha2]; rfl)
          · exact hH1 ha1
        · exact fun z hz => hb2 z (hb1 z hz)
        · exact fun z hz => hw1 z (hw2 z hz)
        · intro hnil d hd hds
          have h12 := List.append_eq_nil.mp hnil
          rcases List.mem_cons.mp hd with hdc | hdc
          · subst hdc
            exact hb2 _ (hf1 h12.1)
          · exact hf2 h12.2 d hdc hds
        · intro hbs hnil
          have h12 := List.append_eq_nil.mp hnil
          exact hbs2 (hbs1 hbs h12.1) h12.2
      · rw [dfsDeps, if_neg hsome]
        obtain ⟨a2, hc2, hH2, hg2, hb2, hw2, hf2, hv2b, hbs2⟩ :=
          ih st (fun d hd => hdeps d (List.mem_cons_of_mem _ hd)) hgray hfw hv2
        refine ⟨a2, hc2, hH2, hg2, hb2, hw2, ?_, hv2b, hbs2⟩
        intro hnil d hd hds
        rcases List.mem_cons.mp hd with hdc | hdc
        · subst hdc
          exact absurd hds hsome
        · exact hf2 hnil d hdc hds

/-- Main specification of the Go DFS: any reported cycle is a real cycle of
the restricted graph; the gray stack is restored on exit; if nothing was
reported, the visited node ends done and no done node lies on a cycle. -/
theorem dfsCyc_spec (g : Graph) :
    ∀ (fuel : Nat) (id : String) (path : List String)
      (st : List (String × Nat) × List String),
    grayIs st.1 path →
    List.Chain' (edgeR g) path →
    (∀ z ∈ path, (lookupA g.Nodes z).isSome) →
    (lookupA g.Nodes id).isSome →
    (∀ l, path.getLast? = some l → edgeR g l id) →
    wcount g st.1 + 1 ≤ fuel →
    VLe2 st.1 →
    ∃ added, (dfsCyc g fuel id path st).2 = st.2 ++ added ∧
      (added ≠ [] → HasCycle g) ∧
      grayIs (dfsCyc g fuel id path st).1 path ∧
      (∀ z, getV st.1 z = 2 → getV (dfsCyc g fuel id path st).1 z = 2) ∧
      (∀ z, getV (dfsCyc g fuel id path st).1 z = 0 → getV st.1 z = 0) ∧
      (added = [] → getV (dfsCyc g fuel id path st).1 id = 2) ∧
      VLe2 (dfsCyc g fuel id path st).1 ∧
      (BlackSafe g st.1 → added = [] → BlackSafe g (dfsCyc g fuel id path st).1) := by
  intro fuel
  induction fuel with
  | zero =>
      intro id path st _ _ _ _ _ hfw _
      omega
  | succ fuel ih =>
      intro id path st hgray hchain hnodes hid hlastE hfw hv2
      by_cases h1 : getV st.1 id = 1
      · have hidp : id ∈ path := (hgray id).mp h1
        obtain ⟨i, hfind, hhead⟩ := findIdx?_go_mem id path 0 hidp
        simp only [Nat.zero_add] at hfind
        have hres : dfsCyc g (fuel + 1) id path st
            = (st.1, st.2 ++ [cycleDesc (path.drop i ++ [id])]) := by
          rw [dfsCyc, if_pos h1, hfind]
        rw [hres]
        have hdropne : path.drop i ≠ [] := by
          intro hc
          rw [hc] at hhead
          simp at hhead
        have hilt : i < path.length := by
          by_contra hcon
          push_neg at hcon
          exact hdropne (List.drop_eq_nil_of_le hcon)
        refine ⟨[cycleDesc (path.drop i ++ [id])], rfl, ?_, hgray, fun z hz => hz,
          fun z hz => hz, ?_, hv2, ?_⟩
        · intro _
          refine ⟨id, ?_⟩
          apply cycle_of_chain g (path.drop i ++ [id]) id
          · have hp1 : 1 ≤ (path.drop i).length := List.length_pos.mpr hdropne
            simp only [List.length_append, List.length_singleton]
            omega
          · rw [List.head?_append, hhead]
            rfl
          · exact List.getLast?_concat _
          · rw [List.chain'_append]
            refine ⟨hchain.drop i, List.chain'_singleton id, ?_⟩
            intro a ha b hb
            rw [List.getLast?_drop, if_neg (by omega)] at ha
            rw [List.head?_cons] at hb
            simp only [Option.mem_def, Option.some_inj] at ha hb
            rw [← hb]
            exact hlastE a ha
        · intro habs
          simp at habs
        · intro _ habs
          simp at habs
      · by_cases h2 : getV st.1 id = 2
        · have hres : dfsCyc g (fuel + 1) id path st = st := by
            rw [dfsCyc, if_neg h1, if_pos h2]
          rw [hres]
          exact ⟨[], by simp, by simp, hgray, fun z hz => hz, fun z hz => hz,
            fun _ => h2, hv2, fun hbs _ => hbs⟩
        · have h0 : getV st.1 id = 0 := by
            have := hv2 id
            omega
          have hidnp : id ∉ path := fun hc => h1 ((hgray id).mpr hc)
          have hgray1 : grayIs (setV st.1 id 1) (path ++ [id]) := by
            intro z
            by_cases hz : id = z
            · subst hz
              rw [getV_setV_self]
              simp
            · rw [getV_setV_ne _ _ _ _ hz, hgray z]
              simp only [List.mem_append, List.mem_singleton]
              constructor
              · exact fun h => Or.inl h
              · rintro (h | h)
                · exact h
                · exact absurd h.symm hz
          have hchain' : List.Chain' (edgeR g) (path ++ [id]) := by
            rw [List.chain'_append]
            refine ⟨hchain, List.chain'_singleton id, ?_⟩
            intro a ha b hb
            rw [List.head?_cons] at hb
            simp only [Option.mem_def, Option.some_inj] at ha hb
            rw [← hb]
            exact hlastE a ha
          have hnodes' : ∀ z ∈ path ++ [id], (lookupA g.Nodes z).isSome := by
            intro z hz
            rcases List.mem_append.mp hz with hz1 | hz2
            · exact hnodes z hz1
            · rw [List.mem_singleton] at hz2
              exact hz2 ▸ hid
          have hlast' : (path ++ [id]).getLast? = some id := List.getLast?_concat _
          have hwc1 : wcount g (setV st.1 id 1) + 1 = wcount g st.1 :=
            wcount_setV_gray g st.1 id hid h0
          have hfw1 : wcount g (setV st.1 id 1) + 1 ≤ fuel := by omega
          have hv21 : VLe2 (setV st.1 id 1) := VLe2.setV _ _ _ (by omega) hv2
          have hdepsE : ∀ d ∈ getA g.Upstream id, (lookupA g.Nodes d.ID).isSome →
              ∀ l, (path ++ [id]).getLast? = some l → edgeR g l d.ID := by
            intro d hd hds l hl
            rw [hlast', Option.some_inj] at hl
            rw [← hl]
            exact ⟨hid, hds, List.mem_map_of_mem Dependency.ID hd⟩
          obtain ⟨added, hcyc, hHas, hgraym, hblackm, hwhitem, hfinalb, hvlem, hbsm⟩ :=
            dfsDeps_spec g fuel (path ++ [id])
              (fun d s => dfsCyc g fuel d (path ++ [id]) s)
              (fun d s hd hlastD hgrayD hfwD hv2D =>
                ih d (path ++ [id]) s hgrayD hchain' hnodes' hd hlastD hfwD hv2D)
              (getA g.Upstream id) (setV st.1 id 1, st.2) hdepsE hgray1 hfw1 hv21
          have hres : dfsCyc g (fuel + 1) id path st
              = (setV (dfsDeps g (fun d s => dfsCyc g fuel d (path ++ [id]) s)
                  (getA g.Upstream id) (setV st.1 id 1, st.2)).1 id 2,
                 (dfsDeps g (fun d s => dfsCyc g fuel d (path ++ [id]) s)
                  (getA g.Upstream id) (setV st.1 id 1, st.2)).2) := by
            rw [dfsCyc, if_neg h1, if_neg h2]
          rw [hres]
          refine ⟨added, ?_, hHas, ?_, ?_, ?_, ?_, ?_, ?_⟩
          · simpa using hcyc
          · intro z
            by_cases hz : id = z
            · subst hz
              rw [getV_setV_self]
              simp [hidnp]
            · rw [getV_setV_ne _ _ _ _ hz, hgraym z]
              simp only [List.mem_append, List.mem_singleton]
              constructor
              · rintro (h | h)
                · exact h
                · exact absurd h.symm hz
              · exact fun h => Or.inl h
          · intro z hz
            have hzid : id ≠ z := by
              intro hc
              rw [← hc] at hz
              omega
            rw [getV_setV_ne _ _ _ _ hzid]
            apply hblackm
            rw [getV_setV_ne _ _ _ _ hzid]
            exact hz
          · intro z hz
            have hzid : id ≠ z := by
              intro hc
              subst hc
              rw [getV_setV_self] at hz
              omega
            rw [getV_setV_ne _ _ _ _ hzid] at hz
            have hz2 := hwhitem z hz
            rw [getV_setV_ne _ _ _ _ hzid] at hz2
            exact hz2
          · intro _
            exact getV_setV_self _ _ _
          · exact VLe2.setV _ _ _ (by omega) hvlem
          · intro hbs hnil
            have hbs1 : BlackSafe g (setV st.1 id 1) := by
              intro z hz
              by_cases hzid : id = z
              · subst hzid
                rw [getV_setV_self] at hz
                simp at hz
              · rw [getV_setV_ne _ _ _ _ hzid] at hz
                exact hbs z hz
            have hbs2 := hbsm hbs1 hnil
            have hnotc : ¬CycleAt g id := by
              rintro ⟨y, hedge, hreach⟩
              have hyS := hedge.2.1
              have hyadj := hedge.2.2
              obtain ⟨d, hd, hdy⟩ := List.mem_map.mp hyadj
              have hblacky : getV (dfsDeps g
                  (fun d s => dfsCyc g fuel d (path ++ [id]) s)
                  (getA g.Upstream id) (setV st.1 id 1, st.2)).1 y = 2 := by
                have hb := hfinalb hnil d hd (by rw [hdy]; exact hyS)
                rw [hdy] at hb
                exact hb
              have hnocy : ¬CycleAt g y := hbs2 y hblacky
              apply hnocy
              by_cases hyid : y = id
              · rw [hyid]
                exact ⟨y, hedge, hreach⟩
              · obtain ⟨z, hz1, hz2⟩ := reachR_first_step hreach hyid
                exact ⟨z, hz1, ReachR.step hz2 hedge⟩
            intro z hz
            by_cases hzid : id = z
            · subst hzid
              exact hnotc
            · rw [getV_setV_ne _ _ _ _ hzid] at hz
              exact hbs2 z hz

/-- Specification of the top-level scan of `FindCycles`. -/
theorem findCyclesFold_spec (g : Graph) :
    ∀ (ks : List String) (st : List (String × Nat) × List String),
    (∀ k ∈ ks, (lookupA g.Nodes k).isSome) →
    grayIs st.1 [] →
    VLe2 st.1 →
    ∃ added,
      (ks.foldl (fun st id => if getV st.1 id = 0
          then dfsCyc g ((keysA g.Nodes).length + 1) id [] st else st) st).2
        = st.2 ++ added ∧
      (added ≠ [] → HasCycle g) ∧
      grayIs (ks.foldl (fun st id => if getV st.1 id = 0
          then dfsCyc g ((keysA g.Nodes).length + 1) id [] st else st) st).1 [] ∧
      (∀ z, getV st.1 z = 2 → getV (ks.foldl (fun st id => if getV st.1 id = 0
          then dfsCyc g ((keysA g.Nodes).length + 1) id [] st else st) st).1 z = 2) ∧
      VLe2 (ks.foldl (fun st id => if getV st.1 id = 0
          then dfsCyc g ((keysA g.Nodes).length + 1) id [] st else st) st).1 ∧
      (BlackSafe g st.1 → added = [] → BlackSafe g (ks.foldl (fun st id =>
          if getV st.1 id = 0
          then dfsCyc g ((keysA g.Nodes).length + 1) id [] st else st) st).1) ∧
      (added = [] → ∀ k ∈ ks, getV (ks.foldl (fun st id => if getV st.1 id = 0
          then dfsCyc g ((keysA g.Nodes).length + 1) id [] st else st) st).1 k = 2) := by
  intro ks
  induction ks with
  | nil =>
      intro st _ hgray hv2
      exact ⟨[], by simp, by simp, hgray, fun z hz => hz, hv2, fun hbs _ => hbs,
        by simp⟩
  | cons k ks ih =>
      intro st hks hgray hv2
      simp only [List.foldl_cons]
      by_cases hk0 : getV st.1 k = 0
      · rw [if_pos hk0]
        obtain ⟨a1, hc1, hH1, hg1, hb1, hw1, hf1, hv1, hbs1⟩ :=
          dfsCyc_spec g ((keysA g.Nodes).length + 1) k [] st hgray List.chain'_nil
            (by simp) (hks k (List.mem_cons_self _ _)) (by simp)
            (by
              have := wcount_le g st.1
              omega) hv2
        obtain ⟨a2, hc2, hH2, hg2, hb2, hv2b, hbs2, hf2⟩ :=
          ih (dfsCyc g ((keysA g.Nodes).length + 1) k [] st)
            (fun k2 hk2 => hks k2 (List.mem_cons_of_mem _ hk2)) hg1 hv1
        refine ⟨a1 ++ a2, ?_, ?_, hg2, ?_, hv2b, ?_, ?_⟩
        · rw [hc2, hc1, List.append_assoc]
        · intro hne
          by_cases ha1 : a1 = []
          · apply hH2
            intro ha2
            exact hne (by rw [ha1, ha2]; rfl)
          · exact hH1 ha1
        · exact fun z hz => hb2 z (hb1 z hz)
        · intro hbs hnil
          have h12 := List.append_eq_nil.mp hnil
          exact hbs2 (hbs1 hbs h12.1) h12.2
        · intro hnil k2 hk2
          have h12 := List.append_eq_nil.mp hnil
          rcases List.mem_cons.mp hk2 with hkc | hkc
          · subst hkc
            exact hb2 _ (hf1 h12.1)
          · exact hf2 h12.2 k2 hkc
      · rw [if_neg hk0]
        obtain ⟨a2, hc2, hH2, hg2, hb2, hv2b, hbs2, hf2⟩ :=
          ih st (fun k2 hk2 => hks k2 (List.mem_cons_of_mem _ hk2)) hgray hv2
        refine ⟨a2, hc2, hH2, hg2, hb2, hv2b, hbs2, ?_⟩
        intro hnil k2 hk2
        rcases List.mem_cons.mp hk2 with hkc | hkc
        · subst hkc
          have hnot1 : getV st.1 k2 ≠ 1 := by
            intro hc
            have := (hgray k2).mp hc
            simp at this
          have hle := hv2 k2
          have hk2b : getV st.1 k2 = 2 := by omega
          exact hb2 k2 hk2b
        · exact hf2 hnil k2 hkc

/-- `FindCycles` is empty exactly when the restricted graph is acyclic. -/
theorem findCycles_iff_acyclic (g : Graph) :
    g.FindCycles = [] ↔ ¬HasCycle g := by
  obtain ⟨added, hcyc, hHas, _, _, _, hbs, hfin⟩ :=
    findCyclesFold_spec g (keysA g.Nodes) ([], [])
      (fun k hk => (isSome_iff_mem_keys _ _).mpr hk)
      (by intro z; simp [getV, lookupA])
      (by intro z; simp [getV, lookupA])
  have hfc : g.FindCycles = added := by
    rw [Graph.FindCycles, hcyc]
    rfl
  constructor
  · intro hnil
    have haddnil : added = [] := by rw [← hfc]; exact hnil
    have hbs0 : BlackSafe g ([] : List (String × Nat)) := by
      intro z hz
      simp [getV, lookupA] at hz
    have hbsf := hbs hbs0 haddnil
    have hblackf := hfin haddnil
    rintro ⟨x, hcx⟩
    obtain ⟨y, hedge, _⟩ := hcx
    have hxk : x ∈ keysA g.Nodes := (isSome_iff_mem_keys _ _).mp hedge.1
    exact hbsf x (hblackf x hxk) ⟨y, hedge, by assumption⟩
  · intro hnoc
    by_contra hne
    rw [hfc] at hne
    exact hnoc (hHas hne)

/-- Fixture: a 3-cycle a -> b -> c -> a over upstream edges. -/
def felts3Cycle : List Felt :=
  [Felt.mk "a" "" "" [Dependency.mk "b" ""] 0,
   Felt.mk "b" "" "" [Dependency.mk "c" ""] 0,
   Felt.mk "c" "" "" [Dependency.mk "a" ""] 0]

/-- Fixture: two overlapping cycles, xa -> xb -> xa and xa -> xc -> xb -> xa,
sharing the edge xb -> xa. -/
def feltsOverlap : List Felt :=
  [Felt.mk "xa" "" "" [Dependency.mk "xb" "", Dependency.mk "xc" ""] 0,
   Felt.mk "xb" "" "" [Dependency.mk "xa" ""] 0,
   Felt.mk "xc" "" "" [Dependency.mk "xb" ""] 0]

/-- C5 counterexample: with two overlapping cycles (sharing an edge),
`FindCycles` reports only one description; the cycle through `xc` exists
but is never reported, so "every such cycle is reported" fails. -/
theorem claim_C5_counterexample :
    (BuildGraph feltsOverlap).FindCycles = ["cycle: xa -> xb -> xa"] ∧
    CycleAt (BuildGraph feltsOverlap) "xc" := by
  refine ⟨by decide, ⟨"xb", by decide, ?_⟩⟩
  exact ReachR.step
    (ReachR.step (ReachR.refl "xb")
      (show edgeR (BuildGraph feltsOverlap) "xb" "xa" by decide))
    (show edgeR (BuildGraph feltsOverlap) "xa" "xc" by decide)

/-- C5 (amended): `FindCycles` returns an empty sequence iff the graph
restricted to ids present in `nodes` (dangling references skipped) has no
directed cycle over upstream edges — so at least one cycle is reported
whenever one exists, self-loops included; a 3-cycle a -> b -> c -> a yields
a description mentioning all three ids; and an acyclic graph yields the
empty sequence. -/
theorem claim_C5_findCycles :
    (∀ g : Graph, g.FindCycles = [] ↔ ¬HasCycle g)
    ∧ (BuildGraph felts3Cycle).FindCycles = ["cycle: a -> b -> c -> a"]
    ∧ (BuildGraph feltsChain).FindCycles = [] := by
  refine ⟨findCycles_iff_acyclic, by decide, by decide⟩

/-! Text serialization (Go `(*Graph).ToText` / `printTextTree`).

`printTextTree` runs `sort.Slice(children, ...)` on `children :=
g.Downstream[id]`, a slice header sharing its backing array with the map
entry — the sort reorders the map entry in place.  The model therefore
threads the `Downstream` map through the traversal and records this
mutation. -/

/-- Byte-wise lexicographic comparison of Go strings (for ASCII ids the
code-point order used here coincides with Go's byte order). -/
def charListLt : List Char → List Char → Bool
  | [], [] => false
  | [], _ :: _ => true
  | _ :: _, [] => false
  | a :: as, b :: bs =>
      if a.toNat < b.toNat then true
      else if b.toNat < a.toNat then false
      else charListLt as bs

/-- Go `<` on strings. -/
def strLt (a b : String) : Bool := charListLt a.data b.data

/-- Status indicator of `printTextTree`. -/
def statusChar (status : String) : String :=
  if status == StatusOpen then "○"
  else if status == StatusActive then "◐"
  else if status == StatusClosed then "●"
  else "·"

/-- Display truncation of `printTextTree` (Go byte lengths coincide with
the character lengths used here on ASCII ids). -/
def displayID (id : String) : String :=
  if id.length > 20 then
    let parts := id.splitOn "-"
    if parts.length ≥ 2 then
      let hex := parts.getLastD ""
      let slug := String.intercalate "-" parts.dropLast
      let slug2 := if slug.length > 12 then slug.take 12 ++ "…" else slug
      slug2 ++ "-" ++ hex
    else id
  else id

/-- Traversal state of `printTextTree`: the accumulated output, the
`printed` set, and the (mutable) `Downstream` map. -/
structure TTState where
  out : String
  printed : List String
  down : List (String × List Dependency)
deriving DecidableEq, Repr

/-- Child loop of `printTextTree`: recurse into each sorted child, the
last one flagged (`i == len(children)-1`). -/
def printChildren (rec : String → String → String → Bool → TTState → TTState)
    (childPfx : String) : List Dependency → TTState → TTState
  | [], st => st
  | child :: rest, st =>
      printChildren rec childPfx rest
        (rec child.ID childPfx child.Label rest.isEmpty st)

/-- Fuel-bounded Go `printTextTree`: print the node once, sort its
downstream children in place (the recorded mutation), and recurse. -/
def printTextTree (g : Graph) : Nat → String → String → String → Bool →
    TTState → TTState
  | 0, _, _, _, _, st => st
  | fuel + 1, id, pfx, edgeLabel, last, st =>
      if id ∈ st.printed then st
      else
        let printed := id :: st.printed
        match lookupA g.Nodes id with
        | none => ⟨st.out, printed, st.down⟩
        | some f =>
            let branch := if pfx = "" then ""
              else if last then "└── " else "├── "
            let labelPart := if edgeLabel = "" then ""
              else " [" ++ edgeLabel ++ "]"
            let line := pfx ++ branch ++ statusChar f.Status ++ " " ++ displayID id
              ++ labelPart ++ "  " ++ f.Title ++ "\n"
            let children := List.insertionSort
              (fun a b => ¬strLt b.ID a.ID = true) (getA st.down id)
            let down := match lookupA st.down id with
              | none => st.down
              | some _ => insertA st.down id children
            let childPfx := if pfx = "" then "    "
              else if last then pfx ++ "    " else pfx ++ "│   "
            printChildren (fun cid cp cl cl2 s => printTextTree g fuel cid cp cl cl2 s)
              childPfx children ⟨st.out ++ line, printed, down⟩

/-- Go `(*Graph).ToText`, with the final `Downstream` map made explicit in
the result so the in-place sort is observable. -/
def Graph.ToTextSt (g : Graph) : TTState :=
  let ids := List.insertionSort (fun a b => ¬strLt b a = true) (keysA g.Nodes)
  let roots := ids.filter (fun id => (getA g.Upstream id).length == 0)
  let fuel := (keysA g.Nodes).length + (allDepIDs g.Downstream).length + 1
  let st1 := roots.foldl
    (fun st root => printTextTree g fuel root "" "" true st) ⟨"", [], g.Downstream⟩
  ids.foldl
    (fun st id => if id ∈ st.printed then st else printTextTree g fuel id "" "" true st)
    st1

/-- Go `(*Graph).ToText`: the text rendering alone. -/
def Graph.ToText (g : Graph) : String := (Graph.ToTextSt g).out

/-- Fixture: a root `a` with two dependents inserted out of id order, so
`Downstream["a"]` is unsorted before `ToText` runs. -/
def feltsToText : List Felt :=
  [Felt.mk "a" "ta" "" [] 0,
   Felt.mk "b2" "t2" "" [Dependency.mk "a" ""] 0,
   Felt.mk "b1" "t1" "" [Dependency.mk "a" ""] 0]

/-- C8: `ToText` is not read-only — `printTextTree` sorts
`g.Downstream[id]` in place (Go `sort.Slice` on the shared slice backing
array), so after rendering, the graph's `Downstream["a"]` entry has been
reordered from build order `[b2, b1]` to id order `[b1, b2]`. -/
theorem claim_C8_toText_mutates :
    getA (BuildGraph feltsToText).Downstream "a"
      = [Dependency.mk "b2" "", Dependency.mk "b1" ""] ∧
    getA (Graph.ToTextSt (BuildGraph feltsToText)).down "a"
      = [Dependency.mk "b1" "", Dependency.mk "b2" ""] ∧
    (Graph.ToTextSt (BuildGraph feltsToText)).down
      ≠ (BuildGraph feltsToText).Downstream := by
  refine ⟨by decide, by decide, by decide⟩
